import Mathlib

/-!
# Verification of the zedset settings reconciliation engine

Shallow embedding of the core tree operations of the zedset settings editor:

* `src/lib/core/merge.ts` — `merge` (deep merge, override wins),
* `src/lib/core/diff.ts` — `diff`, `deepEqual`, `settingsDetailedDiff`,
* `src/lib/stores/settings.svelte.ts` — `_cloneWithStructuralSharing`
  (set/delete with structural sharing and empty-container pruning),
  `_computeChangedPaths`, `_computeCustomPaths`, `_deepEqual`,
  `_getValueByPath`,
* `src/lib/stores/store-utils.js` — `getAllPaths`,
* `src/lib/utils/json-pointer.js` — `parsePointer`, `createPointer`,
  `getByPointer`, `removeByPointer` and the `~0`/`~1` escaping helpers.

Modeling conventions:
* JS strings are lists of characters (`JStr`).
* JS objects are ordered association lists (`List (JStr × JsonVal)`),
  mirroring JS property insertion order; JS objects never have duplicate
  keys, which is captured by the `wfFields`/`wfVal` predicates where needed.
* JS numbers are modeled as integers: the engine only ever compares numbers
  for equality, never computes with them.
* `safeClone` (a `JSON.parse(JSON.stringify(...))` round trip) is the
  identity on the modeled values: every modeled value is JSON-native, so the
  round trip changes references but not structure.  In the plain model
  (`JsonVal`) references are invisible; the reference-tracking model (`RVal`,
  further below) gives clones fresh node identities.
-/

set_option autoImplicit false

namespace ZedSet

/-- JS strings, modeled as lists of characters. -/
abbrev JStr := List Char

/-- A JSON-style settings value (the decoded `SettingsObject` trees of
`src/lib/types`).  Objects are ordered association lists. -/
inductive JsonVal where
  | null
  | bool (b : Bool)
  | num (n : Int)
  | str (s : JStr)
  | arr (elems : List JsonVal)
  | obj (fields : List (JStr × JsonVal))

/-- The fields of a JS object. -/
abbrev JFields := List (JStr × JsonVal)

/-- JS property read `fields[key]` on a plain object: the value of the first
binding with the given key (JS objects have unique keys, so "first" is "the"
binding on well-formed objects), or `none` (`undefined`) when absent. -/
def lookupField : JFields → JStr → Option JsonVal
  | [], _ => none
  | (k, v) :: rest, key => if k = key then some v else lookupField rest key

mutual

/-- `deepEqual` from `src/lib/core/diff.ts` (lines 25–49).  Structural deep
equality: primitives by value, arrays element-wise (order-sensitive, after a
length check), plain objects by key count plus per-key recursive equality.
Values of different kinds (including array vs. object, and `null` vs.
anything else) are unequal; the JS `a === b` fast path and the
`typeof a !== typeof b` test are subsumed by the kind analysis. -/
def deepEqual : JsonVal → JsonVal → Bool
  | .null, .null => true
  | .bool a, .bool b => a == b
  | .num a, .num b => a == b
  | .str a, .str b => a == b
  | .arr a, .arr b => a.length == b.length && deepEqualElems a b
  | .obj fa, .obj fb => fa.length == fb.length && deepEqualFields fa fb
  | _, _ => false

/-- `a.every((item, index) => deepEqual(item, b[index]))`: element-wise deep
equality; a missing `b[index]` is `undefined` and compares unequal. -/
def deepEqualElems : List JsonVal → List JsonVal → Bool
  | [], _ => true
  | _ :: _, [] => false
  | a :: as', b :: bs => deepEqual a b && deepEqualElems as' bs

/-- `keysA.every((key) => deepEqual(a[key], b[key]))`: for each binding of
the first object, the second object must have a deep-equal value at the same
key (`b[key]` being `undefined` compares unequal). -/
def deepEqualFields : JFields → JFields → Bool
  | [], _ => true
  | (k, v) :: rest, fb =>
    (match lookupField fb k with
     | some w => deepEqual v w
     | none => false) && deepEqualFields rest fb

end

/-- `deepEqual` lifted to possibly-`undefined` operands, as the source calls
it with `defaults[key]` lookups: two `undefined`s are `===`-equal, an
`undefined` against a defined value is unequal. -/
def deepEqualOpt : Option JsonVal → Option JsonVal → Bool
  | none, none => true
  | none, some _ => false
  | some _, none => false
  | some a, some b => deepEqual a b

mutual

/-- `wfVal v`: `v` is representable as a JS value — every object in it has
pairwise-distinct keys. -/
def wfVal : JsonVal → Bool
  | .null | .bool _ | .num _ | .str _ => true
  | .arr elems => wfElems elems
  | .obj fields => wfFields fields

/-- All array elements are well-formed. -/
def wfElems : List JsonVal → Bool
  | [] => true
  | v :: rest => wfVal v && wfElems rest

/-- Keys are pairwise distinct and all values are well-formed. -/
def wfFields : JFields → Bool
  | [] => true
  | (k, v) :: rest => (lookupField rest k).isNone && wfVal v && wfFields rest

end

example : deepEqual (.obj [(['a'], .num 1)]) (.obj [(['a'], .num 1)]) = true := by decide
example : deepEqual (.obj [(['a'], .num 1)]) (.obj [(['a'], .num 2)]) = false := by decide
example : deepEqual (.arr [.num 1, .num 2]) (.arr [.num 2, .num 1]) = false := by decide
example : deepEqual .null (.obj []) = false := by decide
example : wfFields [(['a'], .num 1), (['a'], .num 2)] = false := by decide

/-- A value found in an object's fields is structurally smaller than the
field list (used for well-founded recursion through property lookups). -/
theorem lookupField_sizeOf {fs : JFields} {k : JStr} {v : JsonVal}
    (h : lookupField fs k = some v) : sizeOf v < sizeOf fs := by
  induction fs with
  | nil => simp [lookupField] at h
  | cons kv rest ih =>
    obtain ⟨k', v'⟩ := kv
    rw [lookupField] at h
    split at h
    · cases h
      simp only [List.cons.sizeOf_spec, Prod.mk.sizeOf_spec]
      omega
    · have := ih h
      simp only [List.cons.sizeOf_spec]
      omega

/-- JS `Set` construction over a key list: keeps the first occurrence of
each key, in insertion order (`new Set([...keysA, ...keysB])`). -/
def dedupKeys : List JStr → List JStr
  | [] => []
  | k :: rest => k :: dedupKeys (rest.filter (fun k' => k' ≠ k))
termination_by ks => ks.length
decreasing_by
  simp_wf
  have := List.length_filter_le (fun k' => !decide (k' = k)) rest
  omega

/-- The keys of an object, in insertion order (`Object.keys`). -/
def keysOf (fs : JFields) : List JStr := fs.map Prod.fst

mutual

/-- `merge` from `src/lib/core/merge.ts` (lines 25–70), on the field lists
of the two objects.  If the user object is empty the defaults are returned
as-is (reference reuse); otherwise each key of the ordered key union is
merged: a key present on only one side takes that side's value, two plain
objects merge recursively, and in every other case the user value wins
wholesale.  `safeClone` is the identity here (see the module docstring);
the `!defaults`/`!user` null-input branches of the source cannot arise for
the object arguments modeled here. -/
def mergeFields (defaults user : JFields) : JFields :=
  if user.isEmpty then defaults
  else mergeKeys defaults user (dedupKeys (keysOf defaults ++ keysOf user))
termination_by (sizeOf defaults, 1, 0)

/-- The per-key loop of `merge`: processes the deduplicated key union in
order.  The `none, none` case cannot arise (every key of the union is
present on some side) and produces no binding. -/
def mergeKeys (defaults user : JFields) (ks : List JStr) : JFields :=
  match ks with
  | [] => []
  | key :: rest =>
    match hd : lookupField defaults key, lookupField user key with
    | some dv, none => (key, dv) :: mergeKeys defaults user rest
    | none, some uv => (key, uv) :: mergeKeys defaults user rest
    | some dv, some uv => (key, mergeVals dv uv) :: mergeKeys defaults user rest
    | none, none => mergeKeys defaults user rest
termination_by (sizeOf defaults, 0, ks.length)
decreasing_by
  · exact Prod.Lex.right _ (Prod.Lex.right _ (by rw [List.length_cons]; omega))
  · exact Prod.Lex.right _ (Prod.Lex.right _ (by rw [List.length_cons]; omega))
  · exact Prod.Lex.left _ _ (by
      have := lookupField_sizeOf hd
      omega)
  · exact Prod.Lex.right _ (Prod.Lex.right _ (by rw [List.length_cons]; omega))
  · exact Prod.Lex.right _ (Prod.Lex.right _ (by rw [List.length_cons]; omega))

/-- The value `merge` produces for a key present on both sides: two plain
objects merge recursively, in every other combination the user value wins
wholesale. -/
def mergeVals (dv uv : JsonVal) : JsonVal :=
  match dv, uv with
  | .obj dfs, .obj ufs => .obj (mergeFields dfs ufs)
  | _, _ => uv
termination_by (sizeOf dv, 2, 0)
decreasing_by
  exact Prod.Lex.left _ _ (by
    simp only [JsonVal.obj.sizeOf_spec]
    omega)

end

example :
    mergeFields
      [(['t'], .str ['l']), (['u'], .obj [(['f'], .num 14)])]
      [(['t'], .str ['d'])] =
    [(['t'], .str ['d']), (['u'], .obj [(['f'], .num 14)])] := by
  simp [mergeFields, mergeKeys, mergeVals, dedupKeys, keysOf, lookupField]

/-- `diff` from `src/lib/core/diff.ts` (lines 59–79), on the field lists of
the two objects: keeps exactly the top-level bindings of `effective` whose
value is not `deepEqual` to `defaults[key]` (an absent `defaults[key]` is
`undefined` and never deep-equal to a present value).  The comparison is per
top-level key, wholesale — the source does not descend into nested objects.
`safeClone` is the identity here; the `!effective`/`!defaults` null-input
branches and the `effective === defaults` reference fast path cannot change
the result for the object arguments modeled here. -/
def diffFields (effective defaults : JFields) : JFields :=
  effective.filter (fun kv => !deepEqualOpt (some kv.2) (lookupField defaults kv.1))

/-- A decimal digit character (`0 ≤ d ≤ 9`; other inputs do not occur). -/
def digitChar (d : Nat) : Char :=
  match d with
  | 0 => '0' | 1 => '1' | 2 => '2' | 3 => '3' | 4 => '4'
  | 5 => '5' | 6 => '6' | 7 => '7' | 8 => '8' | 9 => '9'
  | _ => '*'

/-- The decimal digit characters of a natural number, as produced by the JS
number-to-string conversion used for array index keys. -/
def natToChars (n : Nat) : JStr :=
  if h : n < 10 then [digitChar (n % 10)]
  else natToChars (n / 10) ++ [digitChar (n % 10)]
termination_by n
decreasing_by
  exact Nat.div_lt_self (by omega) (by omega)

/-- Parses a JS canonical array-index string: a nonempty all-digit string
with no leading zero (except `"0"` itself).  These are exactly the property
keys a JS array exposes for its elements. -/
def parseCanonicalIndex (s : JStr) : Option Nat :=
  if s ≠ [] ∧ s.all (fun c => '0' ≤ c ∧ c ≤ '9') ∧ (s = ['0'] ∨ s.head? ≠ some '0')
  then some (s.foldl (fun acc c => acc * 10 + (c.toNat - 48)) 0)
  else none

/-- Property-level addressing of a tree by a component path (the
specification's `get(tree, path)`): walks object fields by key and array
elements by canonical index; descending into any other value is `undefined`.
This is the observation function the claims are stated with. -/
def getPath (v : JsonVal) (p : List JStr) : Option JsonVal :=
  match p with
  | [] => some v
  | k :: rest =>
    match v with
    | .obj fs =>
      (match lookupField fs k with
       | some w => getPath w rest
       | none => none)
    | .arr xs =>
      (match parseCanonicalIndex k with
       | some i =>
         (match xs.get? i with
          | some w => getPath w rest
          | none => none)
       | none => none)
    | _ => none

/-- `key in objB` (the JS `in` operator on a plain object). -/
def containsKey (fs : JFields) (k : JStr) : Bool := (lookupField fs k).isSome

mutual

/-- `_deepEqual` from `src/lib/stores/settings.svelte.ts` (lines 358–397).
Same semantics as `deepEqual` of `diff.ts`, written with the store's own
checks: the `a == null || b == null` guard (loose equality, catching `null`
and `undefined`), the array branch's inner `Array.isArray(b)` test, and the
object branch's extra `key in objB` membership test. -/
def storeDeepEqual : JsonVal → JsonVal → Bool
  | .null, .null => true
  | .bool a, .bool b => a == b
  | .num a, .num b => a == b
  | .str a, .str b => a == b
  | .arr a, .arr b => a.length == b.length && storeDeepEqualElems a b
  | .obj fa, .obj fb => fa.length == fb.length && storeDeepEqualFields fa fb
  | _, _ => false

/-- The store's element loop `for (let i = 0; i < a.length; i++)`. -/
def storeDeepEqualElems : List JsonVal → List JsonVal → Bool
  | [], _ => true
  | _ :: _, [] => false
  | a :: as', b :: bs => storeDeepEqual a b && storeDeepEqualElems as' bs

/-- The store's key loop with its `key in objB` test. -/
def storeDeepEqualFields : JFields → JFields → Bool
  | [], _ => true
  | (k, v) :: rest, fb =>
    (containsKey fb k &&
     match lookupField fb k with
     | some w => storeDeepEqual v w
     | none => false) && storeDeepEqualFields rest fb

end

/-- The store's `_deepEqual` applied to two possibly-`undefined` path
lookups, as `_computeChangedPaths` does (`a === b` is true for two
`undefined`s; `a == null` rejects an `undefined` against anything else). -/
def storeDeepEqualOpt : Option JsonVal → Option JsonVal → Bool
  | none, none => true
  | none, some _ => false
  | some _, none => false
  | some a, some b => storeDeepEqual a b

/-- JS `String.prototype.split` with a single-character separator. -/
def splitOnChar (c : Char) : JStr → List JStr
  | [] => [[]]
  | x :: rest =>
    if x = c then [] :: splitOnChar c rest
    else
      match splitOnChar c rest with
      | h :: t => (x :: h) :: t
      | [] => [[x]]



/-- `getAllPaths` from `src/lib/stores/store-utils.js` (lines 183–217),
without the semantically transparent memoization cache: the dot-joined
atomic (leaf) paths of an object — a non-null plain object contributes its
descendants' paths (or its own path if it is empty), every other value
(primitive, `null`, array) contributes its own path.  The `prefix ? ... :`
test uses JS string truthiness: an empty prefix means "at the root". -/
def getAllPathsFields (fs : JFields) (pre : JStr) : List JStr :=
  match fs with
  | [] => []
  | (k, v) :: rest =>
    let currentPath := if pre.isEmpty then k else pre ++ '.' :: k
    (match v with
     | .obj gfs =>
       (match getAllPathsFields gfs currentPath with
        | [] => [currentPath]
        | nested => nested)
     | _ => [currentPath]) ++ getAllPathsFields rest pre
termination_by sizeOf fs
decreasing_by
  all_goals
    (simp only [List.cons.sizeOf_spec, Prod.mk.sizeOf_spec, JsonVal.obj.sizeOf_spec]; omega)

/-- One step of the store's `_getValueByPath` reduction
`(current, key) => current?.[key]`: optional chaining yields `undefined`
from `undefined`/`null`; objects are read by own property; arrays expose
their elements at canonical index keys and their own `length` property
(a number); strings expose their characters (one-character strings) at
canonical index keys and their `length`.  Property reads on numbers and
booleans, and reads of keys an object/array/string does not own, reach
only inherited prototype members — never values originating from the
settings JSON — and are modeled as `undefined`. -/
def jsGetStep : Option JsonVal → JStr → Option JsonVal
  | none, _ => none
  | some v, key =>
    match v with
    | .null => none
    | .obj fs => lookupField fs key
    | .arr xs =>
      if key = ['l', 'e', 'n', 'g', 't', 'h'] then some (.num xs.length)
      else
        (match parseCanonicalIndex key with
         | some i => xs.get? i
         | none => none)
    | .str s =>
      if key = ['l', 'e', 'n', 'g', 't', 'h'] then some (.num s.length)
      else
        (match parseCanonicalIndex key with
         | some i =>
           (match s.get? i with
            | some c => some (.str [c])
            | none => none)
         | none => none)
    | _ => none

/-- `_getValueByPath` from `src/lib/stores/settings.svelte.ts` (lines
319–323): split the dotted path and fold the optional-chaining read over the
components, starting from the object. -/
def getValueByPath (fs : JFields) (path : JStr) : Option JsonVal :=
  (splitOnChar '.' path).foldl jsGetStep (some (.obj fs))

/-- `_computeChangedPaths` from `src/lib/stores/settings.svelte.ts` (lines
295–317), as the list of retained paths (the source collects them into a
`Set`; membership is what the claims are about): every atomic user path
whose user value is not store-deep-equal to the default value at the same
dotted path. -/
def changedPathsList (user defaults : JFields) : List JStr :=
  if user.isEmpty then []
  else
    (getAllPathsFields user []).filter (fun p =>
      !storeDeepEqualOpt (getValueByPath user p) (getValueByPath defaults p))

/-- `_computeCustomPaths` from `src/lib/stores/settings.svelte.ts` (lines
278–293): every atomic user path at which the defaults lookup is
`undefined`. -/
def customPathsList (user defaults : JFields) : List JStr :=
  (getAllPathsFields user []).filter (fun p => (getValueByPath defaults p).isNone)

/-- JS `String.prototype.replace` with a global literal pattern: scans left
to right, replacing non-overlapping occurrences of `pat` (the semantics of
`s.replace(/pat/g, rep)` for the literal patterns used by the pointer
escaping helpers).  The patterns used are never empty. -/
def replaceAll (s pat rep : JStr) : JStr :=
  match s with
  | [] => []
  | c :: rest =>
    if pat ≠ [] ∧ pat.isPrefixOf (c :: rest)
    then rep ++ replaceAll ((c :: rest).drop pat.length) pat rep
    else c :: replaceAll rest pat rep
termination_by s.length
decreasing_by
  · rename_i h
    simp only [List.length_drop, List.length_cons]
    have : pat.length ≠ 0 := by
      intro h0
      exact h.1 (List.eq_nil_of_length_eq_zero h0)
    omega
  · simp only [List.length_cons]
    omega

/-- `escapePointerComponent` from `src/lib/utils/json-pointer.js` (lines
257–259): `~` becomes `~0` first, then `/` becomes `~1`. -/
def escapePointerComponent (s : JStr) : JStr :=
  replaceAll (replaceAll s ['~'] ['~', '0']) ['/'] ['~', '1']

/-- `unescapePointerComponent` (lines 265–267): `~1` becomes `/` first,
then `~0` becomes `~`. -/
def unescapePointerComponent (s : JStr) : JStr :=
  replaceAll (replaceAll s ['~', '1'] ['/']) ['~', '0'] ['~']

/-- `parsePointer` (lines 274–286): the empty string is the root (no
components), `"/"` is the single empty component, otherwise an optional
leading slash is dropped and the rest is split on `/` and unescaped. -/
def parsePointer (pointer : JStr) : List JStr :=
  if pointer = [] then []
  else if pointer = ['/'] then [[]]
  else
    let trimmed := if ['/'].isPrefixOf pointer then pointer.drop 1 else pointer
    if trimmed = [] then []
    else (splitOnChar '/' trimmed).map unescapePointerComponent

/-- JS `Array.prototype.join` with the given separator string. -/
def joinWith (sep : JStr) : List JStr → JStr
  | [] => []
  | [p] => p
  | p :: ps => p ++ sep ++ joinWith sep ps

/-- `createPointer` (lines 293–296): empty component list is the empty
pointer, otherwise a leading slash plus the escaped components joined by
`/`. -/
def createPointer (components : List JStr) : JStr :=
  if components.isEmpty then []
  else '/' :: joinWith ['/'] (components.map escapePointerComponent)

/-- JS `parseInt(s, 10)`: skip leading whitespace, read an optional sign and
then a maximal run of decimal digits; `NaN` (here `none`) if no digit
follows. -/
def jsParseInt (s : JStr) : Option Int :=
  let body := s.dropWhile Char.isWhitespace
  match body with
  | '-' :: rest => (digitsPrefixValue rest).map (fun n => -(n : Int))
  | '+' :: rest => (digitsPrefixValue rest).map (fun n => (n : Int))
  | other => (digitsPrefixValue other).map (fun n => (n : Int))
where
  /-- The numeric value of the maximal leading digit run, if nonempty. -/
  digitsPrefixValue (t : JStr) : Option Nat :=
    match t.takeWhile (fun c => '0' ≤ c ∧ c ≤ '9') with
    | [] => none
    | ds => some (ds.foldl (fun acc c => acc * 10 + (c.toNat - 48)) 0)

/-- One step of the `getByPointer` walk (lines 311–323): `null` and
`undefined` stop the walk with `undefined`, arrays are indexed by
`parseInt` with a bounds check, objects are read by key; any other value is
not an object and yields `undefined`. -/
def getStepPointer : Option JsonVal → JStr → Option JsonVal
  | none, _ => none
  | some v, comp =>
    match v with
    | .null => none
    | .obj fs => lookupField fs comp
    | .arr xs =>
      (match jsParseInt comp with
       | some i => if 0 ≤ i ∧ i < xs.length then xs.get? i.toNat else none
       | none => none)
    | _ => none

/-- `getByPointer` from `src/lib/utils/json-pointer.js` (lines 304–326): an
empty pointer returns the object itself, otherwise the parsed components
are walked from the object. -/
def getByPointer (fs : JFields) (pointer : JStr) : Option JsonVal :=
  if pointer = [] then some (.obj fs)
  else (parsePointer pointer).foldl getStepPointer (some (.obj fs))

/-- JS property update `fields[key] = v` on a plain object: replaces the
value of an existing binding in place (keeping its position), or appends a
new binding. -/
def setFieldJ : JFields → JStr → JsonVal → JFields
  | [], k, v => [(k, v)]
  | (k', w) :: rest, k, v =>
    if k' = k then (k, v) :: rest else (k', w) :: setFieldJ rest k v

/-- JS `delete fields[key]` on a plain object (keys are unique in JS; on the
association-list model this removes every binding with the key). -/
def removeFieldJ (fs : JFields) (k : JStr) : JFields :=
  fs.filter (fun kv => kv.1 ≠ k)

/-- The navigation-and-removal core of `removeByPointer` (lines 377–411).
The source deep-clones the input and then mutates the clone in place while
walking the components; this models the same computation as a functional
rebuild of the walked spine.  A missing or `null` intermediate aborts with
the tree unchanged; the final component is removed with `delete` on an
object, `splice` (after a `parseInt` bounds check) on an array, and is a
no-op on anything else. -/
def removeNav (v : JsonVal) (comps : List JStr) : JsonVal :=
  match comps with
  | [] => v
  | [last] =>
    (match v with
     | .obj fs => .obj (removeFieldJ fs last)
     | .arr xs =>
       (match jsParseInt last with
        | some i =>
          if 0 ≤ i ∧ i < xs.length
          then .arr (xs.take i.toNat ++ xs.drop (i.toNat + 1))
          else .arr xs
        | none => .arr xs)
     | other => other)
  | comp :: restHead :: restTail =>
    let rest := restHead :: restTail
    (match v with
     | .obj fs =>
       (match lookupField fs comp with
        | none => v
        | some .null => v
        | some w => .obj (setFieldJ fs comp (removeNav w rest)))
     | .arr xs =>
       (match parseCanonicalIndex comp with
        | some i =>
          (match xs.get? i with
           | some .null => v
           | some w => .arr (xs.set i (removeNav w rest))
           | none => v)
        | none => v)
     | _ => v)

/-- `removeByPointer` (lines 377–411) on the fields of the root object: an
empty pointer (or one with no components) returns the object unchanged;
otherwise the clone-walk-and-remove core runs from the root.  `removeNav`
keeps the root an object, so the fallback arm is unreachable. -/
def removeByPointer (fs : JFields) (pointer : JStr) : JFields :=
  if pointer = [] then fs
  else
    let components := parsePointer pointer
    if components.isEmpty then fs
    else
      match removeNav (.obj fs) components with
      | .obj fs' => fs'
      | _ => fs

/-! ## Reference-tracking model of the store mutation

`_cloneWithStructuralSharing` promises *structural sharing*: subtrees off
the mutated path keep their JS object identity (`===`).  Plain values
cannot express identity, so the mutation is modeled on `RVal`, a copy of
`JsonVal` whose containers carry an allocation identity.  A binding passed
through unchanged keeps its identity; every object the function allocates
(`{ ...obj }`, `{}`, and the spread of an array) receives a fresh identity
drawn from a counter.  When the counter starts above every identity in the
input (`rIdsBelowFields`), result nodes that are equal to input nodes — ids
included — can only be the very same passed-through reference. -/

/-- A JSON value whose containers carry a JS object identity. -/
inductive RVal where
  | null
  | bool (b : Bool)
  | num (n : Int)
  | str (s : JStr)
  | arr (id : Nat) (elems : List RVal)
  | obj (id : Nat) (fields : List (JStr × RVal))

/-- Fields of an identity-carrying object. -/
abbrev RFields := List (JStr × RVal)

/-- JS property read on an identity-carrying object. -/
def lookupFieldR : RFields → JStr → Option RVal
  | [], _ => none
  | (k, v) :: rest, key => if k = key then some v else lookupFieldR rest key

/-- JS property update on an identity-carrying object (replace in place or
append). -/
def setFieldR : RFields → JStr → RVal → RFields
  | [], k, v => [(k, v)]
  | (k', w) :: rest, k, v =>
    if k' = k then (k, v) :: rest else (k', w) :: setFieldR rest k v

/-- JS `delete` on an identity-carrying object. -/
def removeFieldR (fs : RFields) (k : JStr) : RFields :=
  fs.filter (fun kv => kv.1 ≠ k)

/-- The fields obtained by spreading an array into an object literal
(`{ ...someArray }`): the elements keyed by their decimal indices, values
shared. -/
def spreadFieldsFrom (i : Nat) : List RVal → RFields
  | [] => []
  | x :: xs => (natToChars i, x) :: spreadFieldsFrom (i + 1) xs

/-- `{ ...xs }` for an array `xs`. -/
def spreadFields (xs : List RVal) : RFields := spreadFieldsFrom 0 xs

/-- The two operations of `_cloneWithStructuralSharing`. -/
inductive MutOp where
  | set
  | delete

/-- `_cloneWithStructuralSharing` from `src/lib/stores/settings.svelte.ts`
(lines 183–241), on the split path components (the source splits the dotted
path, recurses on `rest.join('.')`, and re-splits; the components produced
by a split never contain `'.'`, so the re-split is the identity and the
recursion acts on the component list as written here).

Returns the resulting top-level fields together with the advanced
allocation counter; the caller's `{ ...obj }` copy of each level is
reflected in the returned field lists, and every object node the function
builds carries a fresh id.  Per the source:

* a single component sets or deletes that binding of the (shallow-copied)
  level;
* for a longer path, an existing non-null object or array binding is
  shallow-copied (an array spreads into a *plain object*) and recursed
  into; anything else (`absent`/`null`/primitive) aborts a delete with the
  level unchanged, while a set overwrites it with a fresh empty object and
  continues;
* after a delete the recursed-into child is dropped if it became empty
  (empty-container pruning). -/
def cloneSSParts (fields : RFields) (parts : List JStr) (value : RVal)
    (op : MutOp) (ctr : Nat) : RFields × Nat :=
  match parts with
  | [] => (fields, ctr)
  | [k] =>
    (match op with
     | .set => (setFieldR fields k value, ctr)
     | .delete => (removeFieldR fields k, ctr))
  | k :: restHead :: restTail =>
    let rest := restHead :: restTail
    let descend := fun (gfs : RFields) =>
      let (inner, c2) := cloneSSParts gfs rest value op ctr
      match op with
      | .set => (setFieldR fields k (.obj c2 inner), c2 + 1)
      | .delete =>
        if inner.isEmpty then (removeFieldR fields k, c2 + 1)
        else (setFieldR fields k (.obj c2 inner), c2 + 1)
    match lookupFieldR fields k with
    | some (.obj _ gfs) => descend gfs
    | some (.arr _ xs) => descend (spreadFields xs)
    | _ =>
      (match op with
       | .delete => (fields, ctr)
       | .set => descend [])

/-- `updateUserSetting`/`resetUserSetting` call `_cloneWithStructuralSharing`
with the dotted path string; this wrapper performs the split. -/
def cloneWithStructuralSharing (fields : RFields) (path : JStr) (value : RVal)
    (op : MutOp) (ctr : Nat) : RFields × Nat :=
  cloneSSParts fields (splitOnChar '.' path) value op ctr

mutual

/-- Forgets the identities, recovering the plain value. -/
def stripVal : RVal → JsonVal
  | .null => .null
  | .bool b => .bool b
  | .num n => .num n
  | .str s => .str s
  | .arr _ elems => .arr (stripElems elems)
  | .obj _ fields => .obj (stripFields fields)

/-- Forgets the identities of array elements. -/
def stripElems : List RVal → List JsonVal
  | [] => []
  | v :: rest => stripVal v :: stripElems rest

/-- Forgets the identities of object fields. -/
def stripFields : RFields → JFields
  | [] => []
  | (k, v) :: rest => (k, stripVal v) :: stripFields rest

end

mutual

/-- Every allocation identity in the value is below the bound. -/
def rIdsBelow : RVal → Nat → Bool
  | .null, _ | .bool _, _ | .num _, _ | .str _, _ => true
  | .arr id elems, bound => id < bound && rIdsBelowElems elems bound
  | .obj id fields, bound => id < bound && rIdsBelowFields fields bound

/-- Identity bound for array elements. -/
def rIdsBelowElems : List RVal → Nat → Bool
  | [], _ => true
  | v :: rest, bound => rIdsBelow v bound && rIdsBelowElems rest bound

/-- Identity bound for object fields. -/
def rIdsBelowFields : RFields → Nat → Bool
  | [], _ => true
  | (_, v) :: rest, bound => rIdsBelow v bound && rIdsBelowFields rest bound

end

/-- Property-level addressing below an identity-carrying value: object
fields by key, array elements by canonical index. -/
def getSubR (v : RVal) (p : List JStr) : Option RVal :=
  match p with
  | [] => some v
  | k :: rest =>
    match v with
    | .obj _ fs =>
      (match lookupFieldR fs k with
       | some w => getSubR w rest
       | none => none)
    | .arr _ xs =>
      (match parseCanonicalIndex k with
       | some i =>
         (match xs.get? i with
          | some w => getSubR w rest
          | none => none)
       | none => none)
    | _ => none

/-- Property-level addressing from a top-level field list (nonempty paths:
the root itself is not a field). -/
def getFieldsR (fs : RFields) (p : List JStr) : Option RVal :=
  match p with
  | [] => none
  | k :: rest =>
    match lookupFieldR fs k with
    | some w => getSubR w rest
    | none => none

/-- Walks a path from a field list strictly through plain objects, returning
the fields of the object the path addresses. -/
def objSpineTo (fs : RFields) (p : List JStr) : Option RFields :=
  match p with
  | [] => some fs
  | k :: rest =>
    match lookupFieldR fs k with
    | some (.obj _ gfs) => objSpineTo gfs rest
    | _ => none

/-- `singleChainB fs parts`: the object with fields `fs` contains exactly
the chain of single-key objects spelled out by the nonempty `parts` — each
level has exactly one binding, named by the next component (the final
binding's value is unconstrained).  This is what "`parts` addresses the last
remaining leaf under this object" means. -/
def singleChainB (fs : RFields) (parts : List JStr) : Bool :=
  match parts, fs with
  | [], _ => false
  | [k], [(k', _)] => k' = k
  | k :: restHead :: restTail, [(k', .obj _ gfs)] =>
    k' = k && singleChainB gfs (restHead :: restTail)
  | _, _ => false

/-- Whether a value is an atomic leaf in the specification's sense: not a
non-empty plain object (primitives, `null`, arrays, and the empty object
are leaves). -/
def isLeafVal : JsonVal → Bool
  | .obj fs => fs.isEmpty
  | _ => true

/-- Whether a value is a plain object. -/
def isObjVal : JsonVal → Bool
  | .obj _ => true
  | _ => false

/-- Whether an optional value is a present plain object. -/
def isObjOpt : Option JsonVal → Bool
  | some (.obj _) => true
  | _ => false


/-- Whether a value is a JS array. -/
def isArrJ : JsonVal → Bool
  | .arr _ => true
  | _ => false

/-- The source's "usable container" test on an existing value encountered
mid-path: `typeof x === 'object' && x !== null` (arrays included). -/
def isUsableContainerR : RVal → Bool
  | .obj _ _ => true
  | .arr _ _ => true
  | _ => false

/-- The nested single-binding chain `{k1: {k2: ... {kn: v}}}` that a set
mutation materializes when it has to create every level of its path
(specification-level shape used to state the overwrite behavior). -/
def buildChain : List JStr → JsonVal → JsonVal
  | [], v => v
  | k :: rest, v => .obj [(k, buildChain rest v)]

/-- Walks a path from plain-object fields strictly through plain objects,
returning the fields of the object the path addresses (specification-level
observation used to state pointer-removal claims). -/
def objSpineToJ (fs : JFields) (p : List JStr) : Option JFields :=
  match p with
  | [] => some fs
  | k :: rest =>
    match lookupField fs k with
    | some (.obj gfs) => objSpineToJ gfs rest
    | _ => none


/-- Dot-joining of a component path (`parts.join('.')`), the string form
the store uses for `changedPaths`/`customPaths` entries. -/
def joinDot (ps : List JStr) : JStr := joinWith ['.'] ps

/-- The dotted string the traversal produces for component path `ps` under
accumulated dotted prefix `pre` (specification-level observation). -/
def preJoin (pre : JStr) (ps : List JStr) : JStr :=
  if pre.isEmpty then joinDot ps else pre ++ '.' :: joinDot ps

/-- The component-path reading of the store's atomic-path traversal
(`getAllPaths` walks and dot-joins exactly these component paths): a
non-empty plain object contributes its descendants' paths prefixed by its
key, every other value (primitive, `null`, array, empty object)
contributes the one-component path of its key.  Specification-level
observation used to state the path claims. -/
def leafPathsFields (fs : JFields) : List (List JStr) :=
  match fs with
  | [] => []
  | (k, v) :: rest =>
    (match v with
     | .obj gfs =>
       (match leafPathsFields gfs with
        | [] => [[k]]
        | nested => nested.map (fun ps => k :: ps))
     | _ => [[k]]) ++ leafPathsFields rest
termination_by sizeOf fs
decreasing_by
  all_goals
    (simp only [List.cons.sizeOf_spec, Prod.mk.sizeOf_spec,
      JsonVal.obj.sizeOf_spec]
     omega)

mutual

/-- Every object key in the value is non-empty and contains no `'.'` —
the side condition under which the store's dot-joined path strings denote
their component paths unambiguously. -/
def dotFreeVal : JsonVal → Bool
  | .obj fs => dotFreeFields fs
  | _ => true

/-- All keys of the object (recursively) are non-empty and dot-free. -/
def dotFreeFields : JFields → Bool
  | [] => true
  | (k, v) :: rest =>
    (!k.isEmpty && !k.contains '.') && dotFreeVal v && dotFreeFields rest

end


/-- The numeric value read off a digit string (the `foldl` used by
`parseCanonicalIndex`). -/
def digitsVal (s : JStr) : Nat :=
  s.foldl (fun acc c => acc * 10 + (c.toNat - 48)) 0

/-- What `merge` yields at a key, stated through the two input lookups:
defaults-only keys keep the default, user-only keys take the user value,
keys on both sides combine with `mergeVals`. -/
def mergeLookupSpec (d u : JFields) (k : JStr) : Option JsonVal :=
  match lookupField d k, lookupField u k with
  | some dv, none => some dv
  | none, some uv => some uv
  | some dv, some uv => some (mergeVals dv uv)
  | none, none => none

/-! ## Pointer escaping and the pointer round trip (C9) -/

theorem replaceAll_nil (pat rep : JStr) : replaceAll [] pat rep = [] := by
  rw [replaceAll]

theorem replaceAll_cons_miss {pat : JStr} {c : Char} {t : JStr} (rep : JStr)
    (h : ¬ pat.isPrefixOf (c :: t)) :
    replaceAll (c :: t) pat rep = c :: replaceAll t pat rep := by
  rw [replaceAll]
  simp [h]

theorem replaceAll_cons_hit (pat : JStr) (hne : pat ≠ []) (t rep : JStr) :
    replaceAll (pat ++ t) pat rep = rep ++ replaceAll t pat rep := by
  obtain ⟨p, ps, rfl⟩ : ∃ p ps, pat = p :: ps := by
    cases pat with
    | nil => exact absurd rfl hne
    | cons p ps => exact ⟨p, ps, rfl⟩
  rw [List.cons_append, replaceAll]
  have hpre : (p :: ps).isPrefixOf (p :: (ps ++ t)) := by
    rw [List.isPrefixOf_iff_prefix]
    exact ⟨t, rfl⟩
  rw [if_pos ⟨hne, hpre⟩]
  congr 1
  rw [show p :: (ps ++ t) = (p :: ps) ++ t from rfl]
  rw [show ((p :: ps) ++ t).drop (p :: ps).length = t from List.drop_left _ _]

theorem replaceAll_one_cons (a : Char) (rep : JStr) (c : Char) (t : JStr) :
    replaceAll (c :: t) [a] rep =
      (if c = a then rep else [c]) ++ replaceAll t [a] rep := by
  by_cases h : c = a
  · subst h
    rw [if_pos rfl]
    exact replaceAll_cons_hit [c] (by simp) t rep
  · rw [if_neg h, List.singleton_append]
    refine replaceAll_cons_miss rep ?_
    simp only [List.isPrefixOf_cons₂, List.isPrefixOf_nil_left, Bool.and_true]
    simp [Ne.symm h]

theorem replaceAll_one_append (a : Char) (rep x y : JStr) :
    replaceAll (x ++ y) [a] rep =
      replaceAll x [a] rep ++ replaceAll y [a] rep := by
  induction x with
  | nil => rw [List.nil_append, replaceAll_nil, List.nil_append]
  | cons c x ih =>
    rw [List.cons_append, replaceAll_one_cons, replaceAll_one_cons, ih,
      List.append_assoc]

theorem replaceAll_two_hit (a b : Char) (rep t : JStr) :
    replaceAll (a :: b :: t) [a, b] rep = rep ++ replaceAll t [a, b] rep :=
  replaceAll_cons_hit [a, b] (by simp) t rep

theorem replaceAll_two_miss_head {a c : Char} (b : Char) (rep t : JStr)
    (h : c ≠ a) :
    replaceAll (c :: t) [a, b] rep = c :: replaceAll t [a, b] rep := by
  refine replaceAll_cons_miss rep ?_
  simp only [List.isPrefixOf_cons₂]
  simp [Ne.symm h]

theorem replaceAll_two_miss_snd {b d : Char} (a c : Char) (rep t : JStr)
    (h : d ≠ b) :
    replaceAll (c :: d :: t) [a, b] rep =
      c :: replaceAll (d :: t) [a, b] rep := by
  refine replaceAll_cons_miss rep ?_
  simp only [List.isPrefixOf_cons₂, List.isPrefixOf_nil_left, Bool.and_true]
  simp [Ne.symm h]

theorem escapePointerComponent_nil : escapePointerComponent [] = [] := by
  rw [escapePointerComponent, replaceAll_nil, replaceAll_nil]

theorem escapePointerComponent_cons (c : Char) (t : JStr) :
    escapePointerComponent (c :: t) =
      (if c = '~' then ['~', '0'] else if c = '/' then ['~', '1'] else [c]) ++
        escapePointerComponent t := by
  rw [escapePointerComponent, escapePointerComponent]
  rw [replaceAll_one_cons, replaceAll_one_append]
  congr 1
  by_cases h1 : c = '~'
  · subst h1
    rw [if_pos rfl, if_pos rfl]
    rw [replaceAll_one_cons, replaceAll_one_cons, replaceAll_nil]
    decide
  · rw [if_neg h1, if_neg h1]
    by_cases h2 : c = '/'
    · subst h2
      rw [if_pos rfl]
      rw [replaceAll_one_cons, replaceAll_nil]
      decide
    · rw [if_neg h2]
      rw [replaceAll_one_cons, replaceAll_nil, if_neg h2, List.append_nil]

theorem unescape_escape (s : JStr) :
    unescapePointerComponent (escapePointerComponent s) = s := by
  induction s with
  | nil =>
    rw [escapePointerComponent_nil, unescapePointerComponent, replaceAll_nil,
      replaceAll_nil]
  | cons c t ih =>
    rw [escapePointerComponent_cons, unescapePointerComponent]
    rw [unescapePointerComponent] at ih
    by_cases h1 : c = '~'
    · subst h1
      rw [if_pos rfl, List.cons_append, List.cons_append, List.nil_append]
      rw [replaceAll_two_miss_snd '~' '~' ['/'] _ (by decide)]
      rw [replaceAll_two_miss_head '1' ['/'] _ (by decide)]
      rw [replaceAll_two_hit '~' '0' ['~'] _]
      rw [List.singleton_append, ih]
    · rw [if_neg h1]
      by_cases h2 : c = '/'
      · subst h2
        rw [if_pos rfl, List.cons_append, List.cons_append, List.nil_append]
        rw [replaceAll_two_hit '~' '1' ['/'] _]
        rw [List.singleton_append]
        rw [replaceAll_two_miss_head '0' ['~'] _ (by decide)]
        rw [ih]
      · rw [if_neg h2, List.singleton_append]
        rw [replaceAll_two_miss_head '1' ['/'] _ h1]
        rw [replaceAll_two_miss_head '0' ['~'] _ h1]
        rw [ih]

theorem slash_not_mem_escape (s : JStr) : '/' ∉ escapePointerComponent s := by
  induction s with
  | nil =>
    rw [escapePointerComponent_nil]
    simp
  | cons c t ih =>
    rw [escapePointerComponent_cons]
    intro hmem
    rw [List.mem_append] at hmem
    rcases hmem with h | h
    · split_ifs at h with h1 h2
      · simp_all
      · simp_all
      · rw [List.mem_singleton] at h
        exact h2 h.symm
    · exact ih h

theorem escapePointerComponent_eq_nil_iff (s : JStr) :
    escapePointerComponent s = [] ↔ s = [] := by
  constructor
  · intro h
    cases s with
    | nil => rfl
    | cons c t =>
      rw [escapePointerComponent_cons] at h
      split_ifs at h <;> simp_all
  · rintro rfl
    exact escapePointerComponent_nil

theorem splitOnChar_no_sep {c : Char} {s : JStr} (h : c ∉ s) :
    splitOnChar c s = [s] := by
  induction s with
  | nil => rfl
  | cons x t ih =>
    have hx : x ≠ c := fun e => h (e ▸ List.mem_cons_self x t)
    rw [splitOnChar, if_neg hx, ih (fun hc => h (List.mem_cons_of_mem _ hc))]

theorem splitOnChar_append_sep {c : Char} {p : JStr} (h : c ∉ p) (t : JStr) :
    splitOnChar c (p ++ c :: t) = p :: splitOnChar c t := by
  induction p with
  | nil =>
    rw [List.nil_append, splitOnChar, if_pos rfl]
  | cons x p' ih =>
    have hx : x ≠ c := fun e => h (e ▸ List.mem_cons_self x p')
    rw [List.cons_append, splitOnChar, if_neg hx,
      ih (fun hc => h (List.mem_cons_of_mem _ hc))]

theorem splitOnChar_joinWith {c : Char} {ps : List JStr} (hne : ps ≠ [])
    (h : ∀ p ∈ ps, c ∉ p) : splitOnChar c (joinWith [c] ps) = ps := by
  induction ps with
  | nil => exact absurd rfl hne
  | cons p ps ih =>
    cases ps with
    | nil => exact splitOnChar_no_sep (h p (List.mem_cons_self p []))
    | cons q qs =>
      rw [show joinWith [c] (p :: q :: qs) = p ++ [c] ++ joinWith [c] (q :: qs)
          from rfl]
      rw [List.append_assoc, List.singleton_append]
      rw [splitOnChar_append_sep (h p (List.mem_cons_self p _))]
      rw [ih (by simp) (fun r hr => h r (List.mem_cons_of_mem _ hr))]

theorem parsePointer_createPointer (comps : List JStr) :
    parsePointer (createPointer comps) = comps := by
  cases comps with
  | nil => rfl
  | cons p ps =>
    have hcp : createPointer (p :: ps) =
        '/' :: joinWith ['/'] ((p :: ps).map escapePointerComponent) := by
      rw [createPointer, if_neg (by simp)]
    by_cases hroot : p = [] ∧ ps = []
    · obtain ⟨rfl, rfl⟩ := hroot
      rw [hcp, List.map_cons, List.map_nil, escapePointerComponent_nil]
      rfl
    · have hJ : joinWith ['/'] ((p :: ps).map escapePointerComponent) ≠ [] := by
        cases ps with
        | nil =>
          rw [List.map_cons, List.map_nil]
          rw [show joinWith ['/'] [escapePointerComponent p] =
            escapePointerComponent p from rfl]
          rw [Ne, escapePointerComponent_eq_nil_iff]
          exact fun hp => hroot ⟨hp, rfl⟩
        | cons q qs =>
          rw [List.map_cons, List.map_cons]
          rw [show joinWith ['/']
              (escapePointerComponent p :: escapePointerComponent q ::
                qs.map escapePointerComponent) =
            escapePointerComponent p ++ ['/'] ++
              joinWith ['/'] (escapePointerComponent q ::
                qs.map escapePointerComponent) from rfl]
          simp
      rw [hcp, parsePointer]
      rw [if_neg (by simp)]
      rw [if_neg (by
        intro hh
        apply hJ
        have := List.cons.injEq '/' (joinWith ['/']
          ((p :: ps).map escapePointerComponent)) '/' [] ▸ hh
        simpa using hh)]
      have htrim : (if ['/'].isPrefixOf
          ('/' :: joinWith ['/'] ((p :: ps).map escapePointerComponent))
          then ('/' :: joinWith ['/']
            ((p :: ps).map escapePointerComponent)).drop 1
          else '/' :: joinWith ['/'] ((p :: ps).map escapePointerComponent)) =
          joinWith ['/'] ((p :: ps).map escapePointerComponent) := by
        rw [if_pos (by simp [List.isPrefixOf])]
        rfl
      rw [htrim, if_neg hJ]
      rw [splitOnChar_joinWith (by simp)
        (by
          intro q hq
          rw [List.mem_map] at hq
          obtain ⟨r, _, rfl⟩ := hq
          exact slash_not_mem_escape r)]
      rw [List.map_map]
      have hcomp : unescapePointerComponent ∘ escapePointerComponent = id := by
        funext r
        exact unescape_escape r
      rw [hcomp, List.map_id]

/-- C9: formatting a component sequence as a JSON Pointer and parsing it
back returns the original sequence, for every sequence — including
components containing the reserved characters `/` and `~`, thanks to the
`~0`/`~1` escaping and the matching unescaping order. -/
theorem C9_pointer_roundtrip (comps : List JStr) :
    parsePointer (createPointer comps) = comps :=
  parsePointer_createPointer comps

example : parsePointer (createPointer [['f', 'o', 'o', '/', 'b', 'a', 'r']]) =
    [['f', 'o', 'o', '/', 'b', 'a', 'r']] :=
  parsePointer_createPointer _


/-! ## C10: `removeByPointer` removes only the addressed key, never prunes -/

theorem lookupField_setFieldJ_self (fs : JFields) (k : JStr) (v : JsonVal) :
    lookupField (setFieldJ fs k v) k = some v := by
  induction fs with
  | nil => simp [setFieldJ, lookupField]
  | cons kv rest ih =>
    obtain ⟨k', w⟩ := kv
    by_cases h : k' = k
    · rw [setFieldJ, if_pos h, lookupField, if_pos rfl]
    · rw [setFieldJ, if_neg h, lookupField, if_neg h, ih]

theorem createPointer_ne_nil {comps : List JStr} (h : comps ≠ []) :
    createPointer comps ≠ [] := by
  rw [createPointer, if_neg (by simpa using h)]
  exact List.cons_ne_nil _ _

/-- Core of C10: walking an all-object spine whose endpoint has exactly the
one binding being removed, `removeNav` empties that object in place (without
touching the spine shape), and the emptied object is still reachable. -/
theorem removeNav_objSpine (parent : List JStr) (fs : JFields) (lst : JStr)
    (w : JsonVal) (hne : parent ≠ [])
    (hsp : objSpineToJ fs parent = some [(lst, w)]) :
    ∃ fs', removeNav (.obj fs) (parent ++ [lst]) = .obj fs' ∧
      parent.foldl getStepPointer (some (.obj fs')) = some (.obj []) := by
  induction parent generalizing fs with
  | nil => exact absurd rfl hne
  | cons k parent' ih =>
    simp only [objSpineToJ] at hsp
    cases hlk : lookupField fs k with
    | none =>
      rw [hlk] at hsp
      simp at hsp
    | some v =>
      rw [hlk] at hsp
      cases v with
      | obj gfs =>
        cases parent' with
        | nil =>
          simp only [objSpineToJ, Option.some.injEq] at hsp
          subst hsp
          refine ⟨setFieldJ fs k (.obj []), ?_, ?_⟩
          · show removeNav (.obj fs) (k :: [lst]) = _
            simp only [removeNav, hlk]
            congr 2
            simp [removeFieldJ]
          · rw [List.foldl_cons, List.foldl_nil, getStepPointer,
              lookupField_setFieldJ_self]
        | cons k2 parent'' =>
          obtain ⟨gfs', hnav, hwalk⟩ := ih gfs (by simp) hsp
          refine ⟨setFieldJ fs k (.obj gfs'), ?_, ?_⟩
          · show removeNav (.obj fs) (k :: (k2 :: parent'') ++ [lst]) = _
            rw [show (k :: (k2 :: parent'')) ++ [lst] =
              k :: k2 :: (parent'' ++ [lst]) from rfl]
            rw [show (k2 :: parent'') ++ [lst] =
              k2 :: (parent'' ++ [lst]) from rfl] at hnav
            simp only [removeNav, hlk, hnav]
          · rw [List.foldl_cons, getStepPointer, lookupField_setFieldJ_self]
            exact hwalk
      | null => simp at hsp
      | bool b => simp at hsp
      | num n => simp at hsp
      | str s => simp at hsp
      | arr xs => simp at hsp

/-- C10: for every object and every pointer addressing the only key of a
nested (all-object-spine) container, `removeByPointer` removes just that
key: the now-empty container is still present as `{}` at its path —
emptied ancestors are never pruned (contrast with the store's `deleteAt`,
which prunes). -/
theorem C10_removeByPointer_no_prune (fs : JFields) (parent : List JStr)
    (lst : JStr) (w : JsonVal) (hne : parent ≠ [])
    (hsp : objSpineToJ fs parent = some [(lst, w)]) :
    getByPointer (removeByPointer fs (createPointer (parent ++ [lst])))
      (createPointer parent) = some (.obj []) := by
  obtain ⟨fs', hnav, hwalk⟩ := removeNav_objSpine parent fs lst w hne hsp
  have hrm : removeByPointer fs (createPointer (parent ++ [lst])) = fs' := by
    rw [removeByPointer, if_neg (createPointer_ne_nil (by simp))]
    rw [parsePointer_createPointer]
    rw [if_neg (by simp), hnav]
  rw [hrm, getByPointer, if_neg (createPointer_ne_nil hne),
    parsePointer_createPointer]
  exact hwalk

/-- Witness for C10 at a concrete input: removing `/a/b` from
`{a: {b: 1}}` leaves `{a: {}}` — the emptied `a` is still present. -/
theorem C10_witness :
    getByPointer
      (removeByPointer [(['a'], .obj [(['b'], .num 1)])]
        (createPointer [['a'], ['b']]))
      (createPointer [['a']]) = some (.obj []) :=
  C10_removeByPointer_no_prune [(['a'], .obj [(['b'], .num 1)])] [['a']]
    ['b'] (.num 1) (by decide) rfl


/-! ## C7: the store's delete prunes emptied containers transitively -/

theorem lookupFieldR_removeFieldR_self (fs : RFields) (k : JStr) :
    lookupFieldR (removeFieldR fs k) k = none := by
  induction fs with
  | nil => rfl
  | cons kv rest ih =>
    obtain ⟨k', w⟩ := kv
    by_cases h : k' = k
    · simp only [removeFieldR, List.filter_cons]
      rw [if_neg (by simp [h])]
      exact ih
    · simp only [removeFieldR, List.filter_cons]
      rw [if_pos (by simp [h])]
      rw [lookupFieldR, if_neg h]
      exact ih

theorem lookupFieldR_setFieldR_self (fs : RFields) (k : JStr) (v : RVal) :
    lookupFieldR (setFieldR fs k v) k = some v := by
  induction fs with
  | nil => simp [setFieldR, lookupFieldR]
  | cons kv rest ih =>
    obtain ⟨k', w⟩ := kv
    by_cases h : k' = k
    · rw [setFieldR, if_pos h, lookupFieldR, if_pos rfl]
    · rw [setFieldR, if_neg h, lookupFieldR, if_neg h, ih]

/-- Deleting along a single-key chain empties the object: every level of
the chain has exactly one binding, so removing the leaf and pruning on the
way out leaves nothing. -/
theorem cloneSSParts_singleChain_delete (parts : List JStr) (gfs : RFields)
    (v : RVal) (c : Nat) (hchain : singleChainB gfs parts = true) :
    (cloneSSParts gfs parts v .delete c).1 = [] := by
  induction parts generalizing gfs c with
  | nil => simp [singleChainB] at hchain
  | cons k rest ih =>
    cases rest with
    | nil =>
      obtain ⟨k', w, rfl⟩ : ∃ k' w, gfs = [(k', w)] := by
        cases gfs with
        | nil => simp [singleChainB] at hchain
        | cons kv rest' =>
          cases rest' with
          | nil => exact ⟨kv.1, kv.2, by simp⟩
          | cons _ _ => simp [singleChainB] at hchain
      have hk : k' = k := by simpa [singleChainB] using hchain
      subst hk
      simp [cloneSSParts, removeFieldR]
    | cons k2 rest' =>
      obtain ⟨k', id', gfs', rfl, hk, hch⟩ :
          ∃ k' id' gfs', gfs = [(k', RVal.obj id' gfs')] ∧ k' = k ∧
            singleChainB gfs' (k2 :: rest') = true := by
        cases gfs with
        | nil => simp [singleChainB] at hchain
        | cons kv rest'' =>
          obtain ⟨k', w⟩ := kv
          cases rest'' with
          | cons _ _ => cases w <;> simp [singleChainB] at hchain
          | nil =>
            cases w with
            | obj id' gfs' =>
              rw [singleChainB] at hchain
              simp only [Bool.and_eq_true, decide_eq_true_eq] at hchain
              exact ⟨k', id', gfs', rfl, hchain.1, hchain.2⟩
            | null => simp [singleChainB] at hchain
            | bool b => simp [singleChainB] at hchain
            | num n => simp [singleChainB] at hchain
            | str s => simp [singleChainB] at hchain
            | arr id xs => simp [singleChainB] at hchain
      subst hk
      have hinner := ih gfs' c hch
      simp only [cloneSSParts, lookupFieldR, if_pos rfl]
      simp [hinner, removeFieldR]

/-- C7: after the store's delete removes the last remaining leaf under an
ancestor path `pre` (the object at `pre` is a single-key chain spelling out
the rest of the deleted path), looking up `pre` in the result yields
`undefined`: every container emptied by the deletion is pruned,
transitively up the spine. -/
theorem C7_delete_prunes_transitively (pre suf : List JStr) (F G : RFields)
    (v : RVal) (c : Nat) (hne : pre ≠ [])
    (hsp : objSpineTo F pre = some G) (hchain : singleChainB G suf = true) :
    getFieldsR ((cloneSSParts F (pre ++ suf) v .delete c).1) pre = none := by
  induction pre generalizing F c with
  | nil => exact absurd rfl hne
  | cons k pre' ih =>
    simp only [objSpineTo] at hsp
    cases hlk : lookupFieldR F k with
    | none => rw [hlk] at hsp; simp at hsp
    | some w =>
      rw [hlk] at hsp
      cases w with
      | obj id1 G1 =>
        have hsuf_ne : suf ≠ [] := by
          intro h
          rw [h] at hchain
          simp [singleChainB] at hchain
        cases pre' with
        | nil =>
          simp only [objSpineTo, Option.some.injEq] at hsp
          subst hsp
          obtain ⟨s1, srest, rfl⟩ : ∃ s1 srest, suf = s1 :: srest := by
            cases suf with
            | nil => exact absurd rfl hsuf_ne
            | cons s1 srest => exact ⟨s1, srest, rfl⟩
          have hinner :=
            cloneSSParts_singleChain_delete (s1 :: srest) G1 v c hchain
          show getFieldsR ((cloneSSParts F (k :: s1 :: srest) v .delete c).1)
            [k] = none
          simp only [cloneSSParts, hlk]
          simp [hinner, getFieldsR, lookupFieldR_removeFieldR_self]
        | cons k2 pre'' =>
          have hih := ih G1 c (by simp) hsp
          show getFieldsR
            ((cloneSSParts F (k :: (k2 :: pre'') ++ suf) v .delete c).1)
            (k :: k2 :: pre'') = none
          rw [show (k :: (k2 :: pre'')) ++ suf =
            k :: k2 :: (pre'' ++ suf) from rfl]
          rw [show (k2 :: pre'') ++ suf = k2 :: (pre'' ++ suf) from rfl] at hih
          simp only [cloneSSParts, hlk]
          by_cases hemp :
              (cloneSSParts G1 (k2 :: (pre'' ++ suf)) v .delete c).1.isEmpty
          · simp [hemp, getFieldsR, lookupFieldR_removeFieldR_self]
          · simp only [getFieldsR] at hih
            simp [hemp, getFieldsR, lookupFieldR_setFieldR_self, getSubR]
            exact hih
      | null => simp at hsp
      | bool b => simp at hsp
      | num n => simp at hsp
      | str s => simp at hsp
      | arr id xs => simp at hsp

/-- Witness for C7 at the specification's own scenario: deleting
`terminal.font.size` (the only field of `terminal.font`, itself the only
field of `terminal`) removes `terminal` entirely. -/
theorem C7_witness :
    getFieldsR
      ((cloneSSParts
        [(['t'], RVal.obj 0 [(['f'], RVal.obj 1 [(['s'], RVal.num 14)])])]
        ([['t']] ++ [['f'], ['s']]) RVal.null .delete 2).1)
      [['t']] = none :=
  C7_delete_prunes_transitively [['t']] [['f'], ['s']]
    [(['t'], RVal.obj 0 [(['f'], RVal.obj 1 [(['s'], RVal.num 14)])])]
    [(['f'], RVal.obj 1 [(['s'], RVal.num 14)])] RVal.null 2
    (by decide) rfl rfl

/-! ## Decimal index strings -/

theorem digitChar_toNat {d : Nat} (h : d < 10) :
    (digitChar d).toNat = 48 + d := by
  interval_cases d <;> decide

theorem digitChar_digit {d : Nat} (h : d < 10) :
    '0' ≤ digitChar d ∧ digitChar d ≤ '9' := by
  interval_cases d <;> decide

theorem digitChar_ne_zero {d : Nat} (h : d < 10) (h0 : d ≠ 0) :
    digitChar d ≠ '0' := by
  interval_cases d <;> simp_all <;> decide

theorem natToChars_ne_nil (n : Nat) : natToChars n ≠ [] := by
  rw [natToChars]
  split
  · exact List.cons_ne_nil _ _
  · simp

theorem natToChars_digits (n : Nat) :
    ∀ c ∈ natToChars n, '0' ≤ c ∧ c ≤ '9' := by
  induction n using Nat.strong_induction_on with
  | _ n ih =>
    rw [natToChars]
    split
    · intro c hc
      rw [List.mem_singleton] at hc
      subst hc
      exact digitChar_digit (Nat.mod_lt _ (by omega))
    · intro c hc
      rw [List.mem_append] at hc
      rcases hc with hc | hc
      · exact ih (n / 10) (Nat.div_lt_self (by omega) (by omega)) c hc
      · rw [List.mem_singleton] at hc
        subst hc
        exact digitChar_digit (Nat.mod_lt _ (by omega))

theorem natToChars_head_ne_zero {n : Nat} (hn : n ≠ 0) :
    (natToChars n).head? ≠ some '0' := by
  induction n using Nat.strong_induction_on with
  | _ n ih =>
    rw [natToChars]
    split
    · rename_i h
      have : n % 10 = n := Nat.mod_eq_of_lt h
      rw [this]
      simp only [List.head?_cons]
      exact fun hh => digitChar_ne_zero h hn (Option.some.inj hh)
    · rename_i h
      have hq : n / 10 ≠ 0 := by
        intro h0
        have := Nat.div_add_mod n 10
        rw [h0] at this
        omega
      have := ih (n / 10) (Nat.div_lt_self (by omega) (by omega)) hq
      cases hcase : natToChars (n / 10) with
      | nil => exact absurd hcase (natToChars_ne_nil _)
      | cons c cs =>
        rw [hcase] at this
        rw [List.cons_append, List.head?_cons]
        simpa using this

theorem natToChars_foldl (n : Nat) :
    (natToChars n).foldl (fun acc c => acc * 10 + (c.toNat - 48)) 0 = n := by
  induction n using Nat.strong_induction_on with
  | _ n ih =>
    rw [natToChars]
    split
    · rename_i h
      rw [List.foldl_cons, List.foldl_nil, digitChar_toNat (Nat.mod_lt _ (by omega))]
      have : n % 10 = n := Nat.mod_eq_of_lt h
      omega
    · rename_i h
      rw [List.foldl_append, ih (n / 10) (Nat.div_lt_self (by omega) (by omega))]
      rw [List.foldl_cons, List.foldl_nil, digitChar_toNat (Nat.mod_lt _ (by omega))]
      omega

/-- The decimal representation of an index parses back as a canonical
index: the keys a spread array exposes address exactly its elements. -/
theorem parseCanonicalIndex_natToChars (n : Nat) :
    parseCanonicalIndex (natToChars n) = some n := by
  rw [parseCanonicalIndex, if_pos, natToChars_foldl]
  refine ⟨natToChars_ne_nil n, ?_, ?_⟩
  · rw [List.all_eq_true]
    intro c hc
    have := natToChars_digits n c hc
    simp only [decide_eq_true_eq]
    exact this
  · by_cases hn : n = 0
    · subst hn
      left
      rw [natToChars]
      decide
    · right
      exact natToChars_head_ne_zero hn

theorem natToChars_injective {m n : Nat} (h : natToChars m = natToChars n) :
    m = n := by
  have hm := parseCanonicalIndex_natToChars m
  rw [h, parseCanonicalIndex_natToChars n] at hm
  cases hm
  rfl


/-! ## C4: set through a non-container overwrites and completes -/

theorem stripFields_setFieldR (fs : RFields) (k : JStr) (v : RVal) :
    stripFields (setFieldR fs k v) = setFieldJ (stripFields fs) k (stripVal v) := by
  induction fs with
  | nil => rfl
  | cons kv rest ih =>
    obtain ⟨k', w⟩ := kv
    by_cases h : k' = k
    · rw [setFieldR, if_pos h, stripFields, stripFields, setFieldJ, if_pos h]
    · rw [setFieldR, if_neg h, stripFields, stripFields, setFieldJ, if_neg h, ih]

/-- Setting along a path that has to be created from scratch materializes
exactly the single-binding chain of the remaining components. -/
theorem cloneSSParts_nil_buildChain (rest : List JStr) (v : RVal) (c : Nat)
    (hne : rest ≠ []) :
    JsonVal.obj (stripFields ((cloneSSParts [] rest v .set c).1)) =
      buildChain rest (stripVal v) := by
  induction rest generalizing c with
  | nil => exact absurd rfl hne
  | cons k rest' ih =>
    cases rest' with
    | nil =>
      rw [show cloneSSParts [] [k] v .set c = (setFieldR [] k v, c) from rfl]
      rw [show setFieldR [] k v = [(k, v)] from rfl]
      rfl
    | cons k2 rt =>
      have hih := ih c (by simp)
      simp only [cloneSSParts, lookupFieldR] at hih ⊢
      rw [show setFieldR ([] : RFields) k
          (RVal.obj (cloneSSParts [] (k2 :: rt) v .set c).2
            (cloneSSParts [] (k2 :: rt) v .set c).1) =
        [(k, RVal.obj (cloneSSParts [] (k2 :: rt) v .set c).2
            (cloneSSParts [] (k2 :: rt) v .set c).1)] from rfl]
      rw [stripFields, stripFields, stripVal, buildChain]
      rw [hih]

/-- C4 (amended): a set mutation whose path steps through an existing
non-container value does *not* abort — it never throws (the embedded
operation is total), but instead of leaving the tree unchanged it
overwrites the offending value with a fresh empty object and completes the
set, materializing the remaining path as a chain of single-binding objects.
(Only the delete operation aborts with the tree unchanged.) -/
theorem C4_set_through_noncontainer_overwrites (F : RFields) (k : JStr)
    (rest : List JStr) (w v : RVal) (c : Nat) (hrest : rest ≠ [])
    (hlk : lookupFieldR F k = some w) (hw : isUsableContainerR w = false) :
    stripFields ((cloneSSParts F (k :: rest) v .set c).1) =
      setFieldJ (stripFields F) k (buildChain rest (stripVal v)) := by
  obtain ⟨r1, rt, rfl⟩ : ∃ r1 rt, rest = r1 :: rt := by
    cases rest with
    | nil => exact absurd rfl hrest
    | cons r1 rt => exact ⟨r1, rt, rfl⟩
  have hchain := cloneSSParts_nil_buildChain (r1 :: rt) v c (by simp)
  cases w with
  | obj id gfs => simp [isUsableContainerR] at hw
  | arr id xs => simp [isUsableContainerR] at hw
  | null =>
    simp only [cloneSSParts, hlk, stripFields_setFieldR]
    rw [← hchain]
    rfl
  | bool b =>
    simp only [cloneSSParts, hlk, stripFields_setFieldR]
    rw [← hchain]
    rfl
  | num n =>
    simp only [cloneSSParts, hlk, stripFields_setFieldR]
    rw [← hchain]
    rfl
  | str s =>
    simp only [cloneSSParts, hlk, stripFields_setFieldR]
    rw [← hchain]
    rfl

/-- C4 counterexample: setting `a.b.c` when `a.b` is the string `"x"`
does not leave the overrides unchanged — the claim's soft abort does not
happen.  The store rebuilds `a.b` as `{c: 1}` (an object where the input
had a string). -/
theorem C4_counterexample :
    stripFields ((cloneWithStructuralSharing
        [(['a'], RVal.obj 7 [(['b'], RVal.str ['x'])])]
        ['a', '.', 'b', '.', 'c'] (RVal.num 1) .set 10).1) =
      [(['a'], JsonVal.obj [(['b'], JsonVal.obj [(['c'], JsonVal.num 1)])])] ∧
    stripFields [(['a'], RVal.obj 7 [(['b'], RVal.str ['x'])])] =
      [(['a'], JsonVal.obj [(['b'], JsonVal.str ['x'])])] ∧
    JsonVal.obj [(['c'], JsonVal.num 1)] ≠ JsonVal.str ['x'] :=
  ⟨rfl, rfl, fun h => nomatch h⟩

/-- Witness for the amended C4 at a concrete input: setting `a.b` when `a`
is the string `"x"` replaces `a` by `{b: 5}`. -/
theorem C4_witness :
    stripFields ((cloneSSParts [(['a'], RVal.str ['x'])]
        (['a'] :: [['b']]) (RVal.num 5) .set 3).1) =
      setFieldJ (stripFields [(['a'], RVal.str ['x'])]) ['a']
        (buildChain [['b']] (stripVal (RVal.num 5))) :=
  C4_set_through_noncontainer_overwrites [(['a'], RVal.str ['x'])] ['a']
    [['b']] (RVal.str ['x']) (RVal.num 5) 3 (by decide) rfl rfl


/-! ## C5: object intermediates are followed, arrays are converted -/

theorem lookupFieldR_setFieldR_other (fs : RFields) (k j : JStr) (v : RVal)
    (h : j ≠ k) : lookupFieldR (setFieldR fs k v) j = lookupFieldR fs j := by
  induction fs with
  | nil =>
    rw [show setFieldR [] k v = [(k, v)] from rfl]
    rw [show (lookupFieldR [(k, v)] j : Option RVal) =
      if k = j then some v else lookupFieldR [] j from rfl]
    rw [if_neg (fun e => h e.symm)]
  | cons kv rest ih =>
    obtain ⟨k', w⟩ := kv
    by_cases hk : k' = k
    · subst hk
      rw [setFieldR, if_pos rfl, lookupFieldR, lookupFieldR,
        if_neg (fun e => h e.symm), if_neg (fun e => h e.symm)]
    · rw [setFieldR, if_neg hk, lookupFieldR, lookupFieldR]
      by_cases hj : k' = j
      · rw [if_pos hj, if_pos hj]
      · rw [if_neg hj, if_neg hj, ih]

theorem lookupFieldR_removeFieldR_other (fs : RFields) (k j : JStr)
    (h : j ≠ k) : lookupFieldR (removeFieldR fs k) j = lookupFieldR fs j := by
  induction fs with
  | nil => rfl
  | cons kv rest ih =>
    obtain ⟨k', w⟩ := kv
    by_cases hk : k' = k
    · simp only [removeFieldR, List.filter_cons]
      rw [if_neg (by simp [hk])]
      rw [show (removeFieldR rest k : RFields) =
        List.filter (fun kv => kv.1 ≠ k) rest from rfl] at ih
      rw [ih, lookupFieldR, if_neg (hk ▸ fun e => h e.symm)]
    · simp only [removeFieldR, List.filter_cons]
      rw [if_pos (by simp [hk])]
      rw [lookupFieldR, lookupFieldR]
      by_cases hj : k' = j
      · rw [if_pos hj, if_pos hj]
      · rw [if_neg hj, if_neg hj]
        exact ih

/-- One-level frame property of the store mutation: bindings at keys other
than the path head are passed through untouched (same reference). -/
theorem cloneSSParts_other_keys (gfs : RFields) (p1 : JStr)
    (pt : List JStr) (v : RVal) (op : MutOp) (c : Nat) (j : JStr)
    (hj : j ≠ p1) :
    lookupFieldR ((cloneSSParts gfs (p1 :: pt) v op c).1) j =
      lookupFieldR gfs j := by
  cases pt with
  | nil =>
    cases op with
    | set => exact lookupFieldR_setFieldR_other gfs p1 j v hj
    | delete => exact lookupFieldR_removeFieldR_other gfs p1 j hj
  | cons p2 pt' =>
    simp only [cloneSSParts]
    cases hlk : lookupFieldR gfs p1 with
    | none =>
      cases op with
      | set => exact lookupFieldR_setFieldR_other gfs p1 j _ hj
      | delete => rfl
    | some w =>
      cases w with
      | obj id g2 =>
        cases op with
        | set => exact lookupFieldR_setFieldR_other gfs p1 j _ hj
        | delete =>
          by_cases hemp : (cloneSSParts g2 (p2 :: pt') v .delete c).1.isEmpty
          · simp only [hemp, if_true]
            exact lookupFieldR_removeFieldR_other gfs p1 j hj
          · simp only [hemp, Bool.false_eq_true, if_false]
            exact lookupFieldR_setFieldR_other gfs p1 j _ hj
      | arr id xs =>
        cases op with
        | set => exact lookupFieldR_setFieldR_other gfs p1 j _ hj
        | delete =>
          by_cases hemp :
              (cloneSSParts (spreadFields xs) (p2 :: pt') v .delete c).1.isEmpty
          · simp only [hemp, if_true]
            exact lookupFieldR_removeFieldR_other gfs p1 j hj
          · simp only [hemp, Bool.false_eq_true, if_false]
            exact lookupFieldR_setFieldR_other gfs p1 j _ hj
      | null =>
        cases op with
        | set => exact lookupFieldR_setFieldR_other gfs p1 j _ hj
        | delete => rfl
      | bool b =>
        cases op with
        | set => exact lookupFieldR_setFieldR_other gfs p1 j _ hj
        | delete => rfl
      | num n =>
        cases op with
        | set => exact lookupFieldR_setFieldR_other gfs p1 j _ hj
        | delete => rfl
      | str s =>
        cases op with
        | set => exact lookupFieldR_setFieldR_other gfs p1 j _ hj
        | delete => rfl

/-- The object an array spreads into exposes exactly the array's elements,
at their decimal index keys (same references). -/
theorem lookupFieldR_spreadFieldsFrom (xs : List RVal) (start n : Nat) :
    lookupFieldR (spreadFieldsFrom start xs) (natToChars n) =
      if n < start then none else xs.get? (n - start) := by
  induction xs generalizing start with
  | nil =>
    rw [show spreadFieldsFrom start [] = [] from rfl]
    rw [show lookupFieldR [] (natToChars n) = none from rfl]
    split <;> simp
  | cons x xs ih =>
    rw [show spreadFieldsFrom start (x :: xs) =
      (natToChars start, x) :: spreadFieldsFrom (start + 1) xs from rfl]
    rw [lookupFieldR]
    by_cases h : start = n
    · subst h
      rw [if_pos rfl, if_neg (by omega)]
      rw [show start - start = 0 from by omega]
      rfl
    · rw [if_neg (fun e => h (natToChars_injective e)), ih (start + 1)]
      by_cases hlt : n < start
      · rw [if_pos (by omega), if_pos hlt]
      · rw [if_neg (by omega), if_neg hlt]
        have : n - start = (n - (start + 1)) + 1 := by omega
        rw [this]
        rfl

theorem lookupFieldR_spreadFields (xs : List RVal) (n : Nat) :
    lookupFieldR (spreadFields xs) (natToChars n) = xs.get? n := by
  rw [spreadFields, lookupFieldR_spreadFieldsFrom]
  rw [if_neg (by omega), Nat.sub_zero]

/-- C5 (amended): a set mutation mid-path follows an existing *plain
object* container — the binding stays an object holding the recursed
fields, with bindings at other keys passed through unchanged — but an
existing *array* container is not kept as an array: it is spread into a
plain object whose fields are the array's elements keyed by their decimal
indices (untouched elements preserved by reference under those keys). -/
theorem C5_follows_objects_converts_arrays (F : RFields) (k r1 : JStr)
    (rt : List JStr) (v : RVal) (c : Nat) :
    (∀ id gfs, lookupFieldR F k = some (.obj id gfs) →
      lookupFieldR ((cloneSSParts F (k :: r1 :: rt) v .set c).1) k =
          some (.obj ((cloneSSParts gfs (r1 :: rt) v .set c).2)
            ((cloneSSParts gfs (r1 :: rt) v .set c).1)) ∧
        ∀ j, j ≠ r1 →
          lookupFieldR ((cloneSSParts gfs (r1 :: rt) v .set c).1) j =
            lookupFieldR gfs j) ∧
    (∀ id xs, lookupFieldR F k = some (.arr id xs) →
      lookupFieldR ((cloneSSParts F (k :: r1 :: rt) v .set c).1) k =
          some (.obj ((cloneSSParts (spreadFields xs) (r1 :: rt) v .set c).2)
            ((cloneSSParts (spreadFields xs) (r1 :: rt) v .set c).1)) ∧
        (∀ j, j ≠ r1 →
          lookupFieldR ((cloneSSParts (spreadFields xs) (r1 :: rt) v .set c).1) j =
            lookupFieldR (spreadFields xs) j) ∧
        ∀ n : Nat, lookupFieldR (spreadFields xs) (natToChars n) = xs.get? n) := by
  constructor
  · intro id gfs hlk
    refine ⟨?_, fun j hj => cloneSSParts_other_keys gfs r1 rt v .set c j hj⟩
    simp only [cloneSSParts, hlk]
    exact lookupFieldR_setFieldR_self _ _ _
  · intro id xs hlk
    refine ⟨?_, fun j hj => cloneSSParts_other_keys _ r1 rt v .set c j hj,
      fun n => lookupFieldR_spreadFields xs n⟩
    simp only [cloneSSParts, hlk]
    exact lookupFieldR_setFieldR_self _ _ _

theorem natToChars_lt_ten {n : Nat} (h : n < 10) :
    natToChars n = [digitChar n] := by
  rw [natToChars, dif_pos h, Nat.mod_eq_of_lt h]

/-- C5 counterexample: setting `a.0` when `a` is the array `[1, 2]` does
not keep `a` an array — the store's `{ ...value }` spread turns it into
the plain object `{0: 9, 1: 2}`. -/
theorem C5_counterexample :
    stripFields ((cloneWithStructuralSharing
        [(['a'], RVal.arr 3 [RVal.num 1, RVal.num 2])]
        ['a', '.', '0'] (RVal.num 9) .set 4).1) =
      [(['a'], JsonVal.obj [(['0'], JsonVal.num 9), (['1'], JsonVal.num 2)])] ∧
    stripFields [(['a'], RVal.arr 3 [RVal.num 1, RVal.num 2])] =
      [(['a'], JsonVal.arr [JsonVal.num 1, JsonVal.num 2])] ∧
    isArrJ (JsonVal.obj [(['0'], JsonVal.num 9), (['1'], JsonVal.num 2)]) = false := by
  refine ⟨?_, rfl, rfl⟩
  have h0 : natToChars 0 = ['0'] := by rw [natToChars_lt_ten (by omega)]; rfl
  have h1 : natToChars 1 = ['1'] := by rw [natToChars_lt_ten (by omega)]; rfl
  simp [cloneWithStructuralSharing, splitOnChar, cloneSSParts, spreadFields,
    spreadFieldsFrom, h0, h1, setFieldR, lookupFieldR, stripFields, stripVal]

/-- Witness for the amended C5 at a concrete input (the array arm, with the
concrete spread fields spelled out). -/
theorem C5_witness :
    lookupFieldR ((cloneSSParts [(['a'], RVal.arr 3 [RVal.num 1, RVal.num 2])]
        (['a'] :: ['0'] :: []) (RVal.num 9) .set 4).1) ['a'] =
        some (.obj ((cloneSSParts
            (spreadFields [RVal.num 1, RVal.num 2]) (['0'] :: []) (RVal.num 9) .set 4).2)
          ((cloneSSParts
            (spreadFields [RVal.num 1, RVal.num 2]) (['0'] :: []) (RVal.num 9) .set 4).1)) ∧
      (∀ j, j ≠ ['0'] →
        lookupFieldR ((cloneSSParts
            (spreadFields [RVal.num 1, RVal.num 2]) (['0'] :: []) (RVal.num 9) .set 4).1) j =
          lookupFieldR (spreadFields [RVal.num 1, RVal.num 2]) j) ∧
      ∀ n : Nat, lookupFieldR (spreadFields [RVal.num 1, RVal.num 2]) (natToChars n) =
        [RVal.num 1, RVal.num 2].get? n :=
  (C5_follows_objects_converts_arrays
    [(['a'], RVal.arr 3 [RVal.num 1, RVal.num 2])] ['a'] ['0'] [] (RVal.num 9) 4).2
    3 [RVal.num 1, RVal.num 2] rfl


/-! ## Canonical index strings: converse round trip -/

theorem char_toNat_inj {a b : Char} (h : a.toNat = b.toNat) : a = b :=
  Char.eq_of_val_eq (UInt32.ext h)

theorem char_digit_bounds {c : Char} (h0 : '0' ≤ c) (h9 : c ≤ '9') :
    48 ≤ c.toNat ∧ c.toNat ≤ 57 := by
  constructor
  · exact h0
  · exact h9

theorem digitChar_of_digit {c : Char} (h0 : '0' ≤ c) (h9 : c ≤ '9') :
    digitChar (c.toNat - 48) = c := by
  obtain ⟨hlo, hhi⟩ := char_digit_bounds h0 h9
  have hd : c.toNat - 48 < 10 := by omega
  apply char_toNat_inj
  rw [digitChar_toNat hd]
  omega


theorem digits_foldl_ge (s : JStr) (acc : Nat) :
    acc ≤ s.foldl (fun acc c => acc * 10 + (c.toNat - 48)) acc := by
  induction s generalizing acc with
  | nil => exact Nat.le_refl _
  | cons c cs ih =>
    rw [List.foldl_cons]
    exact Nat.le_trans (by omega) (ih (acc * 10 + (c.toNat - 48)))

theorem digitsVal_pos {c : Char} {cs : JStr} (h0 : '0' ≤ c) (h9 : c ≤ '9')
    (hne : c ≠ '0') : 1 ≤ digitsVal (c :: cs) := by
  obtain ⟨hlo, hhi⟩ := char_digit_bounds h0 h9
  have h0 : ('0' : Char).toNat = 48 := rfl
  have hc : 1 ≤ c.toNat - 48 := by
    rcases Nat.lt_or_ge 48 c.toNat with h | h
    · omega
    · exfalso
      exact hne (char_toNat_inj (by omega : c.toNat = ('0' : Char).toNat))
  rw [digitsVal, List.foldl_cons]
  exact Nat.le_trans (by omega) (digits_foldl_ge cs _)

/-- Converse round trip: a canonical digit string is the decimal
representation of its value. -/
theorem natToChars_digitsVal {j : JStr} (hne : j ≠ [])
    (hdig : ∀ c ∈ j, '0' ≤ c ∧ c ≤ '9')
    (hcan : j = ['0'] ∨ j.head? ≠ some '0') :
    natToChars (digitsVal j) = j := by
  induction j using List.reverseRecOn with
  | nil => exact absurd rfl hne
  | append_singleton j' d ihj =>
    have hd : '0' ≤ d ∧ d ≤ '9' := hdig d (by simp)
    have hdval : d.toNat - 48 < 10 := by
      obtain ⟨hlo, hhi⟩ := char_digit_bounds hd.1 hd.2
      omega
    cases hj' : j' with
    | nil =>
      subst hj'
      rw [show digitsVal ([] ++ [d]) = d.toNat - 48 from by
        rw [digitsVal]
        simp]
      rw [natToChars_lt_ten hdval, digitChar_of_digit hd.1 hd.2]
      rfl
    | cons c cs =>
      subst hj'
      have hc : '0' ≤ c ∧ c ≤ '9' := hdig c (by simp)
      have hchead : c ≠ '0' := by
        rcases hcan with hcan | hcan
        · exfalso
          have := congrArg List.length hcan
          simp at this
        · intro hc0
          subst hc0
          simp at hcan
      have hpos : 1 ≤ digitsVal (c :: cs) := digitsVal_pos hc.1 hc.2 hchead
      have hval : digitsVal ((c :: cs) ++ [d]) =
          digitsVal (c :: cs) * 10 + (d.toNat - 48) := by
        rw [digitsVal, digitsVal, List.foldl_append]
        rfl
      have hge : ¬ digitsVal ((c :: cs) ++ [d]) < 10 := by omega
      rw [natToChars, dif_neg hge]
      have hdiv : digitsVal ((c :: cs) ++ [d]) / 10 = digitsVal (c :: cs) := by
        omega
      have hmod : digitsVal ((c :: cs) ++ [d]) % 10 = d.toNat - 48 := by
        omega
      rw [hdiv, hmod, digitChar_of_digit hd.1 hd.2]
      rw [ihj (by simp) (fun x hx => hdig x (List.mem_append_left _ hx))
        (Or.inr (by
          simp only [List.head?_cons]
          exact fun hh => hchead (Option.some.inj hh)))]

theorem natToChars_parseCanonicalIndex {j : JStr} {i : Nat}
    (h : parseCanonicalIndex j = some i) : natToChars i = j := by
  rw [parseCanonicalIndex] at h
  split at h
  · rename_i hcond
    obtain ⟨hne, hdig, hcan⟩ := hcond
    cases h
    apply natToChars_digitsVal hne
    · intro c hc
      have := List.all_eq_true.mp hdig c hc
      simpa using this
    · exact hcan
  · cases h

/-- General key lookup in a spread array: exactly the canonical indices in
range hit, returning the corresponding element. -/
theorem lookupFieldR_spreadFieldsFrom_key (xs : List RVal) (start : Nat)
    (j : JStr) :
    lookupFieldR (spreadFieldsFrom start xs) j =
      (match parseCanonicalIndex j with
       | some i => if i < start then none else xs.get? (i - start)
       | none => none) := by
  induction xs generalizing start with
  | nil =>
    cases hp : parseCanonicalIndex j with
    | none => rfl
    | some i =>
      rw [show spreadFieldsFrom start [] = [] from rfl]
      rw [show (lookupFieldR [] j : Option RVal) = none from rfl]
      split <;> simp
  | cons x xs ih =>
    rw [show spreadFieldsFrom start (x :: xs) =
      (natToChars start, x) :: spreadFieldsFrom (start + 1) xs from rfl]
    rw [lookupFieldR]
    by_cases hkey : natToChars start = j
    · rw [if_pos hkey, ← hkey, parseCanonicalIndex_natToChars]
      show some x = if start < start then none else (x :: xs).get? (start - start)
      rw [if_neg (by omega), show start - start = 0 from by omega]
      rfl
    · rw [if_neg hkey, ih (start + 1)]
      cases hp : parseCanonicalIndex j with
      | none => rfl
      | some i =>
        have hi : i ≠ start := by
          intro hh
          subst hh
          exact hkey (natToChars_parseCanonicalIndex hp)
        show (if i < start + 1 then none else xs.get? (i - (start + 1))) =
          if i < start then none else (x :: xs).get? (i - start)
        by_cases hlt : i < start
        · rw [if_pos (by omega), if_pos hlt]
        · rw [if_neg (by omega), if_neg hlt]
          rw [show i - start = (i - (start + 1)) + 1 from by omega]
          rfl

theorem lookupFieldR_spreadFields_key (xs : List RVal) (j : JStr) :
    lookupFieldR (spreadFields xs) j =
      (match parseCanonicalIndex j with
       | some i => xs.get? i
       | none => none) := by
  rw [spreadFields, lookupFieldR_spreadFieldsFrom_key]
  cases parseCanonicalIndex j with
  | none => rfl
  | some i =>
    show (if i < 0 then none else xs.get? (i - 0)) = xs.get? i
    rw [if_neg (by omega), Nat.sub_zero]

/-! ## C6: structural sharing of the store's set mutation -/

theorem getSubR_obj_cons (id : Nat) (fs : RFields) (a : JStr)
    (r : List JStr) : getSubR (.obj id fs) (a :: r) = getFieldsR fs (a :: r) :=
  rfl

/-- Addressing below a spread array coincides with addressing below the
array itself: the spread exposes the same subtrees at the same paths. -/
theorem getFieldsR_spreadFields (xs : List RVal) (id : Nat) (q2 : JStr)
    (qt : List JStr) :
    getFieldsR (spreadFields xs) (q2 :: qt) = getSubR (.arr id xs) (q2 :: qt) := by
  rw [show getFieldsR (spreadFields xs) (q2 :: qt) =
    (match lookupFieldR (spreadFields xs) q2 with
     | some w => getSubR w qt
     | none => none) from rfl]
  rw [lookupFieldR_spreadFields_key]
  rw [show getSubR (.arr id xs) (q2 :: qt) =
    (match parseCanonicalIndex q2 with
     | some i =>
       (match xs.get? i with
        | some w => getSubR w qt
        | none => none)
     | none => none) from rfl]
  cases parseCanonicalIndex q2 with
  | none => rfl
  | some i =>
    cases xs.get? i with
    | none => rfl
    | some w => rfl

theorem rIdsBelow_lookup {F : RFields} {c : Nat} {k : JStr} {w : RVal}
    (hF : rIdsBelowFields F c = true) (h : lookupFieldR F k = some w) :
    rIdsBelow w c = true := by
  induction F with
  | nil => cases h
  | cons kv rest ih =>
    obtain ⟨k', v'⟩ := kv
    rw [rIdsBelowFields, Bool.and_eq_true] at hF
    rw [lookupFieldR] at h
    split at h
    · cases h
      exact hF.1
    · exact ih hF.2 h

theorem rIdsBelow_spreadFieldsFrom {xs : List RVal} {c : Nat}
    (h : rIdsBelowElems xs c = true) (start : Nat) :
    rIdsBelowFields (spreadFieldsFrom start xs) c = true := by
  induction xs generalizing start with
  | nil => rfl
  | cons x xs ih =>
    rw [rIdsBelowElems, Bool.and_eq_true] at h
    rw [show spreadFieldsFrom start (x :: xs) =
      (natToChars start, x) :: spreadFieldsFrom (start + 1) xs from rfl]
    rw [rIdsBelowFields, Bool.and_eq_true]
    exact ⟨h.1, ih h.2 (start + 1)⟩

/-- C6: structural sharing.  After `setAt(overrides, p, v)` (the store's
`_cloneWithStructuralSharing` with `op = set`), every subtree at a path `q`
that neither lies on the spine of `p` (`q` is not a prefix of `p`) nor is
inside the written value (`p` is not a prefix of `q`) is the very same
subtree as in the original: node identities included, so under the
freshness hypothesis (`ctr` above every identity in the input, making every
allocated node distinguishable from every input node) it is the
passed-through reference, not a copy.  Only the spine is rebuilt. -/
theorem getFieldsR_cons (fs : RFields) (a : JStr) (r : List JStr) :
    getFieldsR fs (a :: r) =
      (match lookupFieldR fs a with
       | some w => getSubR w r
       | none => none) := rfl

/-- C6: structural sharing.  After `setAt(overrides, p, v)` (the store's
`_cloneWithStructuralSharing` with `op = set`), every subtree at a path `q`
that neither lies on the spine of `p` (`q` is not a prefix of `p`) nor is
inside the written value (`p` is not a prefix of `q`) is the very same
subtree as in the original — node identities included.  Under the
freshness hypothesis (the counter starts above every identity in the
input, so every node the mutation allocates is distinguishable from every
input node) identity-preserving equality means the binding was passed
through by reference, not copied: only the spine from the root to the
mutated binding is rebuilt. -/
theorem C6_structural_sharing (parts : List JStr) (F : RFields) (v : RVal)
    (c : Nat) (q : List JStr) (hfresh : rIdsBelowFields F c = true)
    (hq1 : parts.isPrefixOf q = false) (hq2 : q.isPrefixOf parts = false) :
    getFieldsR ((cloneSSParts F parts v .set c).1) q = getFieldsR F q := by
  induction parts generalizing F q c with
  | nil => simp at hq1
  | cons k pt ih =>
    cases q with
    | nil => simp at hq2
    | cons j qt =>
      by_cases hjk : j = k
      · subst hjk
        rw [List.isPrefixOf_cons₂, Bool.and_eq_false_iff] at hq1 hq2
        have hq1' : pt.isPrefixOf qt = false := by
          rcases hq1 with h | h
          · simp at h
          · exact h
        have hq2' : qt.isPrefixOf pt = false := by
          rcases hq2 with h | h
          · simp at h
          · exact h
        cases pt with
        | nil => simp at hq1'
        | cons p2 pt' =>
          cases qt with
          | nil => simp at hq2'
          | cons q2 qt' =>
            cases hlk : lookupFieldR F j with
            | none =>
              simp only [cloneSSParts, hlk]
              rw [getFieldsR_cons, lookupFieldR_setFieldR_self]
              show getFieldsR ((cloneSSParts [] (p2 :: pt') v .set c).1)
                  (q2 :: qt') = getFieldsR F (j :: q2 :: qt')
              rw [ih [] c (q2 :: qt') rfl hq1' hq2']
              rw [getFieldsR_cons F j (q2 :: qt'), hlk]
              rfl
            | some w =>
              cases w with
              | obj id gfs =>
                have hsub : rIdsBelowFields gfs c = true := by
                  have hb := rIdsBelow_lookup hfresh hlk
                  rw [rIdsBelow, Bool.and_eq_true] at hb
                  exact hb.2
                simp only [cloneSSParts, hlk]
                rw [getFieldsR_cons, lookupFieldR_setFieldR_self]
                show getFieldsR ((cloneSSParts gfs (p2 :: pt') v .set c).1)
                    (q2 :: qt') = getFieldsR F (j :: q2 :: qt')
                rw [ih gfs c (q2 :: qt') hsub hq1' hq2']
                rw [getFieldsR_cons F j (q2 :: qt'), hlk]
                rfl
              | arr id xs =>
                have hsub : rIdsBelowFields (spreadFields xs) c = true := by
                  have hb := rIdsBelow_lookup hfresh hlk
                  rw [rIdsBelow, Bool.and_eq_true] at hb
                  exact rIdsBelow_spreadFieldsFrom hb.2 0
                simp only [cloneSSParts, hlk]
                rw [getFieldsR_cons, lookupFieldR_setFieldR_self]
                show getFieldsR
                    ((cloneSSParts (spreadFields xs) (p2 :: pt') v .set c).1)
                    (q2 :: qt') = getFieldsR F (j :: q2 :: qt')
                rw [ih (spreadFields xs) c (q2 :: qt') hsub hq1' hq2']
                rw [getFieldsR_spreadFields xs id q2 qt']
                rw [getFieldsR_cons F j (q2 :: qt'), hlk]
              | null =>
                simp only [cloneSSParts, hlk]
                rw [getFieldsR_cons, lookupFieldR_setFieldR_self]
                show getFieldsR ((cloneSSParts [] (p2 :: pt') v .set c).1)
                    (q2 :: qt') = getFieldsR F (j :: q2 :: qt')
                rw [ih [] c (q2 :: qt') rfl hq1' hq2']
                rw [getFieldsR_cons F j (q2 :: qt'), hlk]
                rfl
              | bool b =>
                simp only [cloneSSParts, hlk]
                rw [getFieldsR_cons, lookupFieldR_setFieldR_self]
                show getFieldsR ((cloneSSParts [] (p2 :: pt') v .set c).1)
                    (q2 :: qt') = getFieldsR F (j :: q2 :: qt')
                rw [ih [] c (q2 :: qt') rfl hq1' hq2']
                rw [getFieldsR_cons F j (q2 :: qt'), hlk]
                rfl
              | num n =>
                simp only [cloneSSParts, hlk]
                rw [getFieldsR_cons, lookupFieldR_setFieldR_self]
                show getFieldsR ((cloneSSParts [] (p2 :: pt') v .set c).1)
                    (q2 :: qt') = getFieldsR F (j :: q2 :: qt')
                rw [ih [] c (q2 :: qt') rfl hq1' hq2']
                rw [getFieldsR_cons F j (q2 :: qt'), hlk]
                rfl
              | str s =>
                simp only [cloneSSParts, hlk]
                rw [getFieldsR_cons, lookupFieldR_setFieldR_self]
                show getFieldsR ((cloneSSParts [] (p2 :: pt') v .set c).1)
                    (q2 :: qt') = getFieldsR F (j :: q2 :: qt')
                rw [ih [] c (q2 :: qt') rfl hq1' hq2']
                rw [getFieldsR_cons F j (q2 :: qt'), hlk]
                rfl
      · rw [getFieldsR_cons, cloneSSParts_other_keys F k pt v .set c j hjk]
        rw [getFieldsR_cons]

/-- Witness for C6 at a concrete input: setting `a.x` leaves the sibling
subtree at `b` untouched (identity included). -/
theorem C6_witness :
    getFieldsR ((cloneSSParts
        [(['a'], RVal.obj 0 [(['x'], RVal.num 1)]), (['b'], RVal.str ['s'])]
        [['a'], ['x']] (RVal.num 2) .set 5).1) [['b']] =
      getFieldsR
        [(['a'], RVal.obj 0 [(['x'], RVal.num 1)]), (['b'], RVal.str ['s'])]
        [['b']] :=
  C6_structural_sharing [['a'], ['x']]
    [(['a'], RVal.obj 0 [(['x'], RVal.num 1)]), (['b'], RVal.str ['s'])]
    (RVal.num 2) 5 [['b']] (by decide) (by decide) (by decide)

/-! ## C2: the exported diff is top-level, not per-leaf -/

theorem lookupField_none_filter (p : JStr × JsonVal → Bool) {fs : JFields}
    {k : JStr} (h : lookupField fs k = none) :
    lookupField (fs.filter p) k = none := by
  induction fs with
  | nil => rfl
  | cons kv rest ih =>
    obtain ⟨k', v'⟩ := kv
    rw [lookupField] at h
    split at h
    · cases h
    · rw [List.filter_cons]
      split
      · rw [lookupField]
        rename_i hk _
        rw [if_neg hk]
        exact ih h
      · exact ih h

theorem not_mem_keysOf {fs : JFields} {k : JStr}
    (h : lookupField fs k = none) : k ∉ keysOf fs := by
  induction fs with
  | nil => simp [keysOf]
  | cons kv rest ih =>
    obtain ⟨k', v'⟩ := kv
    rw [lookupField] at h
    split at h
    · cases h
    · rw [keysOf, List.map_cons, List.mem_cons]
      rintro (hh | hh)
      · rename_i hk
        exact hk hh.symm
      · exact ih h hh

theorem keysOf_nodup_tail {k : JStr} {v : JsonVal} {rest : JFields}
    (h : (keysOf ((k, v) :: rest)).Nodup) :
    lookupField rest k = none := by
  rw [keysOf, List.map_cons, List.nodup_cons] at h
  cases hlk : lookupField rest k with
  | none => rfl
  | some w =>
    exfalso
    apply h.1
    clear h
    induction rest with
    | nil => cases hlk
    | cons kv rest' ih =>
      obtain ⟨k', v'⟩ := kv
      rw [lookupField] at hlk
      rw [List.map_cons, List.mem_cons]
      split at hlk
      · rename_i hk
        exact Or.inl hk.symm
      · exact Or.inr (ih hlk)

theorem lookupField_filter (p : JStr × JsonVal → Bool) (fs : JFields)
    (hnd : (keysOf fs).Nodup) (k : JStr) :
    lookupField (fs.filter p) k =
      (match lookupField fs k with
       | some v => if p (k, v) then some v else none
       | none => none) := by
  induction fs with
  | nil => rfl
  | cons kv rest ih =>
    obtain ⟨k', v'⟩ := kv
    have hnd' : (keysOf rest).Nodup := by
      rw [keysOf, List.map_cons, List.nodup_cons] at hnd
      exact hnd.2
    by_cases hk : k' = k
    · subst hk
      rw [show lookupField ((k', v') :: rest) k' = some v' from by
        rw [lookupField, if_pos rfl]]
      show lookupField (List.filter p ((k', v') :: rest)) k' =
        if p (k', v') then some v' else none
      by_cases hp : p (k', v') = true
      · rw [List.filter_cons_of_pos hp, if_pos hp, lookupField, if_pos rfl]
      · rw [List.filter_cons_of_neg (by simp [hp]), if_neg hp]
        exact lookupField_none_filter p (keysOf_nodup_tail hnd)
    · rw [show lookupField ((k', v') :: rest) k = lookupField rest k from by
        rw [lookupField, if_neg hk]]
      by_cases hp : p (k', v') = true
      · rw [List.filter_cons_of_pos hp, lookupField, if_neg hk]
        exact ih hnd'
      · rw [List.filter_cons_of_neg (by simp [hp])]
        exact ih hnd'

theorem wfFields_keysOf_nodup {fs : JFields} (h : wfFields fs = true) :
    (keysOf fs).Nodup := by
  induction fs with
  | nil => exact List.nodup_nil
  | cons kv rest ih =>
    obtain ⟨k, v⟩ := kv
    simp only [wfFields, Bool.and_eq_true] at h
    rw [keysOf, List.map_cons, List.nodup_cons]
    exact ⟨not_mem_keysOf (Option.isNone_iff_eq_none.mp h.1.1), ih h.2⟩

/-- C2 (amended): `diff` compares each *top-level* key wholesale: the
delta's binding at `k` is the full overrides value when it is not
deep-equal to the defaults value, and is absent otherwise.  In particular
no *top-level key* of the delta deep-equals its default — but the delta is
not leaf-minimal (see the counterexample: a changed object is copied whole,
equal leaves included). -/
theorem C2_diff_is_top_level (eff d : JFields) (hwf : wfFields eff = true)
    (k : JStr) :
    lookupField (diffFields eff d) k =
      (match lookupField eff k with
       | some v =>
         if deepEqualOpt (some v) (lookupField d k) = true then none else some v
       | none => none) := by
  rw [diffFields, lookupField_filter _ eff (wfFields_keysOf_nodup hwf) k]
  cases hle : lookupField eff k with
  | none => rfl
  | some v =>
    show (if !deepEqualOpt (some v) (lookupField d k) then some v else none) =
      if deepEqualOpt (some v) (lookupField d k) = true then none else some v
    by_cases hde : deepEqualOpt (some v) (lookupField d k) = true
    · simp [hde]
    · rw [Bool.not_eq_true] at hde
      simp [hde]

/-- Witness for the amended C2 at a concrete input. -/
theorem C2_witness :
    lookupField (diffFields [(['a'], JsonVal.num 1)] []) ['a'] =
      (match lookupField [(['a'], JsonVal.num 1)] ['a'] with
       | some v =>
         if deepEqualOpt (some v) (lookupField [] ['a']) = true then none
         else some v
       | none => none) :=
  C2_diff_is_top_level [(['a'], JsonVal.num 1)] [] (by decide) ['a']

/-- C2 counterexample: with `overrides = {a: {x: 1, y: 2}}` and
`defaults = {a: {x: 1, y: 3}}`, the delta contains the leaf path `a.x`
whose overrides value deep-equals the defaults value — `diff` copied the
whole changed top-level object, it does not examine leaves individually. -/
theorem C2_counterexample :
    getPath (.obj (diffFields
        [(['a'], JsonVal.obj [(['x'], JsonVal.num 1), (['y'], JsonVal.num 2)])]
        [(['a'], JsonVal.obj [(['x'], JsonVal.num 1), (['y'], JsonVal.num 3)])]))
      [['a'], ['x']] = some (JsonVal.num 1) ∧
    isLeafVal (JsonVal.num 1) = true ∧
    deepEqualOpt
      (getPath (.obj [(['a'],
        JsonVal.obj [(['x'], JsonVal.num 1), (['y'], JsonVal.num 2)])])
        [['a'], ['x']])
      (getPath (.obj [(['a'],
        JsonVal.obj [(['x'], JsonVal.num 1), (['y'], JsonVal.num 3)])])
        [['a'], ['x']]) = true :=
  ⟨rfl, rfl, rfl⟩


/-! ## The lookup characterization of `merge`, and C3 -/


theorem lookupField_eq_none_of_not_mem {fs : JFields} {k : JStr}
    (h : k ∉ keysOf fs) : lookupField fs k = none := by
  induction fs with
  | nil => rfl
  | cons kv rest ih =>
    obtain ⟨k', v'⟩ := kv
    rw [keysOf, List.map_cons, List.mem_cons] at h
    rw [lookupField, if_neg (fun e => h (Or.inl e.symm))]
    exact ih (fun hm => h (Or.inr hm))

theorem mem_dedupKeys (ks : List JStr) (k : JStr) :
    k ∈ dedupKeys ks ↔ k ∈ ks := by
  have H : ∀ n (ks : List JStr), ks.length ≤ n →
      (k ∈ dedupKeys ks ↔ k ∈ ks) := by
    intro n
    induction n with
    | zero =>
      intro ks hks
      cases ks with
      | nil => rw [dedupKeys]
      | cons a b => simp at hks
    | succ n ih =>
      intro ks hks
      cases ks with
      | nil => rw [dedupKeys]
      | cons k' rest =>
        rw [dedupKeys, List.mem_cons, List.mem_cons]
        by_cases hk : k = k'
        · simp [hk]
        · have hlen : (rest.filter (fun x => x ≠ k')).length ≤ n := by
            have := List.length_filter_le (fun x => decide (x ≠ k')) rest
            rw [List.length_cons] at hks
            omega
          rw [ih _ hlen, List.mem_filter]
          constructor
          · rintro (h | h)
            · exact Or.inl h
            · exact Or.inr h.1
          · rintro (h | h)
            · exact Or.inl h
            · exact Or.inr ⟨h, by simpa using hk⟩
  exact H ks.length ks (Nat.le_refl _)

theorem dedupKeys_nodup (ks : List JStr) : (dedupKeys ks).Nodup := by
  have H : ∀ n (ks : List JStr), ks.length ≤ n → (dedupKeys ks).Nodup := by
    intro n
    induction n with
    | zero =>
      intro ks hks
      cases ks with
      | nil =>
        rw [dedupKeys]
        exact List.nodup_nil
      | cons a b => simp at hks
    | succ n ih =>
      intro ks hks
      cases ks with
      | nil =>
        rw [dedupKeys]
        exact List.nodup_nil
      | cons k' rest =>
        rw [dedupKeys, List.nodup_cons]
        have hlen : (rest.filter (fun x => x ≠ k')).length ≤ n := by
          have := List.length_filter_le (fun x => decide (x ≠ k')) rest
          rw [List.length_cons] at hks
          omega
        refine ⟨?_, ih _ hlen⟩
        intro hmem
        rw [mem_dedupKeys, List.mem_filter] at hmem
        simpa using hmem.2
  exact H ks.length ks (Nat.le_refl _)

theorem mergeKeys_lookup_not_mem (d u : JFields) (ks : List JStr) (k : JStr)
    (h : k ∉ ks) : lookupField (mergeKeys d u ks) k = none := by
  induction ks with
  | nil =>
    rw [mergeKeys]
    rfl
  | cons key rest ih =>
    rw [List.mem_cons] at h
    have hkey : key ≠ k := fun e => h (Or.inl e.symm)
    have hrest := ih (fun hm => h (Or.inr hm))
    rw [mergeKeys]
    cases lookupField d key <;> cases lookupField u key
    · exact hrest
    · rw [lookupField, if_neg hkey]
      exact hrest
    · rw [lookupField, if_neg hkey]
      exact hrest
    · rw [lookupField, if_neg hkey]
      exact hrest

theorem mergeKeys_lookup_mem (d u : JFields) (ks : List JStr) (k : JStr)
    (hnd : ks.Nodup) (h : k ∈ ks) :
    lookupField (mergeKeys d u ks) k = mergeLookupSpec d u k := by
  induction ks with
  | nil => cases h
  | cons key rest ih =>
    rw [List.nodup_cons] at hnd
    by_cases hk : key = k
    · subst hk
      rw [mergeKeys, mergeLookupSpec]
      have hnot := mergeKeys_lookup_not_mem d u rest key hnd.1
      cases lookupField d key <;> cases lookupField u key
      · exact hnot
      · rw [lookupField, if_pos rfl]
      · rw [lookupField, if_pos rfl]
      · rw [lookupField, if_pos rfl]
    · have hmem : k ∈ rest := by
        rw [List.mem_cons] at h
        rcases h with h | h
        · exact absurd h.symm hk
        · exact h
      have := ih hnd.2 hmem
      rw [mergeKeys]
      cases lookupField d key <;> cases lookupField u key
      · exact this
      · rw [lookupField, if_neg hk]
        exact this
      · rw [lookupField, if_neg hk]
        exact this
      · rw [lookupField, if_neg hk]
        exact this

theorem mem_keysOf_of_lookup_isSome {fs : JFields} {k : JStr}
    (h : (lookupField fs k).isSome) : k ∈ keysOf fs := by
  by_cases hm : k ∈ keysOf fs
  · exact hm
  · rw [lookupField_eq_none_of_not_mem hm] at h
    cases h

/-- Every lookup into the merged object is described by
`mergeLookupSpec` — the central characterization of `merge`. -/
theorem mergeFields_lookup (d u : JFields) (k : JStr) :
    lookupField (mergeFields d u) k = mergeLookupSpec d u k := by
  by_cases hemp : u.isEmpty
  · rw [mergeFields, if_pos hemp]
    have hu : u = [] := by
      cases u with
      | nil => rfl
      | cons a b => simp at hemp
    subst hu
    rw [mergeLookupSpec]
    cases lookupField d k <;> rfl
  · rw [mergeFields, if_neg hemp]
    by_cases hmem : k ∈ dedupKeys (keysOf d ++ keysOf u)
    · exact mergeKeys_lookup_mem d u _ k (dedupKeys_nodup _) hmem
    · rw [mergeKeys_lookup_not_mem d u _ k hmem]
      rw [mem_dedupKeys, List.mem_append] at hmem
      have hd : lookupField d k = none := by
        cases hdd : lookupField d k with
        | none => rfl
        | some v =>
          exact absurd (Or.inl (mem_keysOf_of_lookup_isSome (by rw [hdd]; rfl)))
            hmem
      have hu : lookupField u k = none := by
        cases huu : lookupField u k with
        | none => rfl
        | some v =>
          exact absurd (Or.inr (mem_keysOf_of_lookup_isSome (by rw [huu]; rfl)))
            hmem
      rw [mergeLookupSpec, hd, hu]

/-- Override-wins, for non-object override values: the merged tree carries
exactly the override value at every path where the overrides hold a
non-object value (primitives, `null`, arrays — the atomic leaves other
than the empty object). -/
theorem merge_override_wins (p : List JStr) (d u : JFields) (v : JsonVal)
    (hv : getPath (.obj u) p = some v) (hnv : isObjVal v = false) :
    getPath (.obj (mergeFields d u)) p = some v := by
  induction p generalizing d u v with
  | nil =>
    simp only [getPath, Option.some.injEq] at hv
    subst hv
    simp [isObjVal] at hnv
  | cons k rest ih =>
    simp only [getPath] at hv ⊢
    rw [mergeFields_lookup, mergeLookupSpec]
    cases hu : lookupField u k with
    | none =>
      rw [hu] at hv
      cases hv
    | some uv =>
      rw [hu] at hv
      cases hd : lookupField d k with
      | none => exact hv
      | some dv =>
        show getPath (mergeVals dv uv) rest = some v
        have hvv : getPath uv rest = some v := hv
        cases dv with
        | obj dfs =>
          cases uv with
          | obj ufs =>
            rw [show mergeVals (JsonVal.obj dfs) (JsonVal.obj ufs) =
              JsonVal.obj (mergeFields dfs ufs) from by rw [mergeVals]]
            cases rest with
            | nil =>
              simp only [getPath, Option.some.injEq] at hvv
              subst hvv
              simp [isObjVal] at hnv
            | cons k2 rt => exact ih dfs ufs v hvv hnv
          | null =>
            rw [show mergeVals (JsonVal.obj dfs) JsonVal.null =
              JsonVal.null from by rw [mergeVals] <;> simp]
            exact hvv
          | bool b =>
            rw [show mergeVals (JsonVal.obj dfs) (JsonVal.bool b) =
              JsonVal.bool b from by rw [mergeVals] <;> simp]
            exact hvv
          | num n =>
            rw [show mergeVals (JsonVal.obj dfs) (JsonVal.num n) =
              JsonVal.num n from by rw [mergeVals] <;> simp]
            exact hvv
          | str sv =>
            rw [show mergeVals (JsonVal.obj dfs) (JsonVal.str sv) =
              JsonVal.str sv from by rw [mergeVals] <;> simp]
            exact hvv
          | arr xs =>
            rw [show mergeVals (JsonVal.obj dfs) (JsonVal.arr xs) =
              JsonVal.arr xs from by rw [mergeVals] <;> simp]
            exact hvv
        | null =>
          rw [show mergeVals JsonVal.null uv = uv from by
            rw [mergeVals] <;> simp]
          exact hvv
        | bool b =>
          rw [show mergeVals (JsonVal.bool b) uv = uv from by
            rw [mergeVals] <;> simp]
          exact hvv
        | num n =>
          rw [show mergeVals (JsonVal.num n) uv = uv from by
            rw [mergeVals] <;> simp]
          exact hvv
        | str sv =>
          rw [show mergeVals (JsonVal.str sv) uv = uv from by
            rw [mergeVals] <;> simp]
          exact hvv
        | arr xs =>
          rw [show mergeVals (JsonVal.arr xs) uv = uv from by
            rw [mergeVals] <;> simp]
          exact hvv

theorem merge_fallback (p : List JStr) (d u : JFields) (dv : JsonVal)
    (hd : getPath (.obj d) p = some dv) (hu : getPath (.obj u) p = none)
    (hspine : ∀ i, i < p.length →
      getPath (.obj u) (p.take i) = none ∨
        (isObjOpt (getPath (.obj u) (p.take i)) = true ∧
         isObjOpt (getPath (.obj d) (p.take i)) = true)) :
    getPath (.obj (mergeFields d u)) p = some dv := by
  induction p generalizing d u with
  | nil =>
    simp only [getPath] at hu
    cases hu
  | cons k rest ih =>
    simp only [getPath] at hd hu ⊢
    rw [mergeFields_lookup, mergeLookupSpec]
    cases hdk : lookupField d k with
    | none =>
      rw [hdk] at hd
      cases hd
    | some dvk =>
      rw [hdk] at hd
      cases huk : lookupField u k with
      | none => exact hd
      | some uvk =>
        rw [huk] at hu
        cases rest with
        | nil =>
          simp only [getPath] at hu
          cases hu
        | cons k2 rt =>
          have hsp := hspine 1 (by simp only [List.length_cons]; omega)
          rw [show (k :: k2 :: rt).take 1 = [k] from rfl] at hsp
          simp only [getPath, huk, hdk] at hsp
          rcases hsp with hsp | hsp
          · cases hsp
          · obtain ⟨h1, h2⟩ := hsp
            cases uvk with
            | obj ufs =>
              cases dvk with
              | obj dfs =>
                show getPath
                  (mergeVals (JsonVal.obj dfs) (JsonVal.obj ufs)) (k2 :: rt) =
                  some dv
                rw [show mergeVals (JsonVal.obj dfs) (JsonVal.obj ufs) =
                  JsonVal.obj (mergeFields dfs ufs) from by rw [mergeVals]]
                refine ih dfs ufs hd hu ?_
                intro i hi
                have hstep := hspine (i + 1)
                  (by simp only [List.length_cons] at hi ⊢; omega)
                rw [List.take_succ_cons] at hstep
                simp only [getPath, huk, hdk] at hstep
                exact hstep
              | null => simp [isObjOpt] at h2
              | bool b => simp [isObjOpt] at h2
              | num n => simp [isObjOpt] at h2
              | str sv => simp [isObjOpt] at h2
              | arr xs => simp [isObjOpt] at h2
            | null => simp [isObjOpt] at h1
            | bool b => simp [isObjOpt] at h1
            | num n => simp [isObjOpt] at h1
            | str sv => simp [isObjOpt] at h1
            | arr xs => simp [isObjOpt] at h1

/-- C3 (amended): the effective tree's invariant, with the two provisos the
code forces.  Override-wins holds at every overrides path holding a
*non-object* value (an empty-object override leaf can instead be replaced
by the defaults' subtree, because `merge` returns the defaults unchanged
when the user side is empty — see the counterexample).  Defaults-fallback
holds at every defaults path absent from the overrides *provided* each
strict prefix of the path is, in the overrides, either absent or a plain
object sitting over a plain object in the defaults (an overrides
non-object mid-path replaces the whole defaults subtree wholesale). -/
theorem C3_effective_values (d u : JFields) :
    (∀ p v, getPath (.obj u) p = some v → isObjVal v = false →
      getPath (.obj (mergeFields d u)) p = some v) ∧
    (∀ p dv, getPath (.obj d) p = some dv → getPath (.obj u) p = none →
      (∀ i, i < p.length →
        getPath (.obj u) (p.take i) = none ∨
          (isObjOpt (getPath (.obj u) (p.take i)) = true ∧
           isObjOpt (getPath (.obj d) (p.take i)) = true)) →
      getPath (.obj (mergeFields d u)) p = some dv) :=
  ⟨fun p v hv hnv => merge_override_wins p d u v hv hnv,
   fun p dv hd hu hsp => merge_fallback p d u dv hd hu hsp⟩

/-- Witness for the amended C3 at a concrete input (override-wins side,
plus a fallback instance). -/
theorem C3_witness :
    getPath (.obj (mergeFields [(['t'], JsonVal.str ['l'])]
      [(['t'], JsonVal.str ['d'])])) [['t']] = some (JsonVal.str ['d']) :=
  (C3_effective_values [(['t'], JsonVal.str ['l'])]
    [(['t'], JsonVal.str ['d'])]).1 [['t']] (JsonVal.str ['d']) rfl rfl

/-- C3 counterexample: with `defaults = {a: {x: 1}}` and
`overrides = {a: {}}`, the path `a` is a leaf of the overrides (an empty
object is atomic), yet the effective value at `a` is the defaults'
`{x: 1}`, not the overrides' `{}` — `merge` returns the defaults subtree
unchanged when the override side is an empty object. -/
theorem C3_counterexample :
    getPath (.obj [(['a'], JsonVal.obj [])]) [['a']] =
      some (JsonVal.obj []) ∧
    isLeafVal (JsonVal.obj []) = true ∧
    getPath (.obj (mergeFields [(['a'], JsonVal.obj [(['x'], JsonVal.num 1)])]
        [(['a'], JsonVal.obj [])])) [['a']] =
      some (JsonVal.obj [(['x'], JsonVal.num 1)]) ∧
    deepEqual (JsonVal.obj []) (JsonVal.obj [(['x'], JsonVal.num 1)]) = false := by
  refine ⟨rfl, rfl, ?_, rfl⟩
  rw [show getPath (.obj (mergeFields
      [(['a'], JsonVal.obj [(['x'], JsonVal.num 1)])]
      [(['a'], JsonVal.obj [])])) [['a']] =
    lookupField (mergeFields [(['a'], JsonVal.obj [(['x'], JsonVal.num 1)])]
      [(['a'], JsonVal.obj [])]) ['a'] from by
      simp only [getPath]
      cases lookupField (mergeFields
        [(['a'], JsonVal.obj [(['x'], JsonVal.num 1)])]
        [(['a'], JsonVal.obj [])]) ['a'] <;> rfl]
  rw [mergeFields_lookup]
  rw [show mergeLookupSpec [(['a'], JsonVal.obj [(['x'], JsonVal.num 1)])]
      [(['a'], JsonVal.obj [])] ['a'] =
    some (mergeVals (JsonVal.obj [(['x'], JsonVal.num 1)]) (JsonVal.obj []))
    from rfl]
  rw [show mergeVals (JsonVal.obj [(['x'], JsonVal.num 1)]) (JsonVal.obj []) =
    JsonVal.obj (mergeFields [(['x'], JsonVal.num 1)] []) from by
    rw [mergeVals]]
  rw [show mergeFields [(['x'], JsonVal.num 1)] [] =
    [(['x'], JsonVal.num 1)] from by rw [mergeFields]; rfl]


/-! ## Deep-equality toolkit (towards C1) -/

theorem lookup_isSome_of_mem_keysOf {fs : JFields} {k : JStr}
    (h : k ∈ keysOf fs) : (lookupField fs k).isSome = true := by
  induction fs with
  | nil => cases h
  | cons kv rest ih =>
    obtain ⟨k', v'⟩ := kv
    rw [keysOf, List.map_cons, List.mem_cons] at h
    rw [lookupField]
    by_cases hk : k' = k
    · rw [if_pos hk]
      rfl
    · rw [if_neg hk]
      rcases h with h | h
      · exact absurd h.symm hk
      · exact ih h

theorem mem_of_lookupField {fs : JFields} {k : JStr} {v : JsonVal}
    (h : lookupField fs k = some v) : (k, v) ∈ fs := by
  induction fs with
  | nil => cases h
  | cons kv rest ih =>
    obtain ⟨k', v'⟩ := kv
    rw [lookupField] at h
    split at h
    · rename_i hk
      subst hk
      cases h
      exact List.mem_cons_self _ _
    · exact List.mem_cons_of_mem _ (ih h)

theorem lookupField_of_mem_wf {fs : JFields} {k : JStr} {v : JsonVal}
    (hwf : wfFields fs = true) (h : (k, v) ∈ fs) :
    lookupField fs k = some v := by
  induction fs with
  | nil => cases h
  | cons kv rest ih =>
    obtain ⟨k', v'⟩ := kv
    simp only [wfFields, Bool.and_eq_true] at hwf
    rcases List.mem_cons.mp h with h | h
    · cases h
      rw [lookupField, if_pos rfl]
    · rw [lookupField]
      by_cases hk : k' = k
      · subst hk
        have hsome := ih hwf.2 h
        have hnone := hwf.1.1
        rw [hsome] at hnone
        simp at hnone
      · rw [if_neg hk]
        exact ih hwf.2 h

theorem wfVal_of_lookup {fs : JFields} {k : JStr} {v : JsonVal}
    (hwf : wfFields fs = true) (h : lookupField fs k = some v) :
    wfVal v = true := by
  induction fs with
  | nil => cases h
  | cons kv rest ih =>
    obtain ⟨k', v'⟩ := kv
    simp only [wfFields, Bool.and_eq_true] at hwf
    rw [lookupField] at h
    split at h
    · cases h
      exact hwf.1.2
    · exact ih hwf.2 h

theorem wfVal_of_mem {fs : JFields} {kv : JStr × JsonVal}
    (hwf : wfFields fs = true) (h : kv ∈ fs) : wfVal kv.2 = true := by
  obtain ⟨k, v⟩ := kv
  exact wfVal_of_lookup hwf (lookupField_of_mem_wf hwf h)

theorem wfVal_of_mem_elems {xs : List JsonVal} {x : JsonVal}
    (hwf : wfElems xs = true) (h : x ∈ xs) : wfVal x = true := by
  induction xs with
  | nil => cases h
  | cons y rest ih =>
    simp only [wfElems, Bool.and_eq_true] at hwf
    rcases List.mem_cons.mp h with h | h
    · subst h
      exact hwf.1
    · exact ih hwf.2 h

theorem wfFields_filter (p : JStr × JsonVal → Bool) {fs : JFields}
    (hwf : wfFields fs = true) : wfFields (fs.filter p) = true := by
  induction fs with
  | nil => exact hwf
  | cons kv rest ih =>
    obtain ⟨k, v⟩ := kv
    simp only [wfFields, Bool.and_eq_true] at hwf
    by_cases hp : p (k, v) = true
    · rw [List.filter_cons_of_pos hp]
      simp only [wfFields, Bool.and_eq_true]
      refine ⟨⟨?_, hwf.1.2⟩, ih hwf.2⟩
      rw [lookupField_none_filter p (Option.isNone_iff_eq_none.mp hwf.1.1)]
      rfl
    · rw [List.filter_cons_of_neg (by simp [hp])]
      exact ih hwf.2

theorem deepEqualFields_intro {fa fb : JFields}
    (h : ∀ kv ∈ fa, ∃ w, lookupField fb kv.1 = some w ∧
      deepEqual kv.2 w = true) :
    deepEqualFields fa fb = true := by
  induction fa with
  | nil => rfl
  | cons kv rest ih =>
    obtain ⟨k, v⟩ := kv
    simp only [deepEqualFields, Bool.and_eq_true]
    obtain ⟨w, hw, hde⟩ := h (k, v) (List.mem_cons_self _ _)
    refine ⟨?_, ih (fun kv hkv => h kv (List.mem_cons_of_mem _ hkv))⟩
    rw [hw]
    exact hde

theorem deepEqualFields_elim {fa fb : JFields} {kv : JStr × JsonVal}
    (h : deepEqualFields fa fb = true) (hm : kv ∈ fa) :
    ∃ w, lookupField fb kv.1 = some w ∧ deepEqual kv.2 w = true := by
  induction fa with
  | nil => cases hm
  | cons kv' rest ih =>
    obtain ⟨k, v⟩ := kv'
    simp only [deepEqualFields, Bool.and_eq_true] at h
    rcases List.mem_cons.mp hm with hm | hm
    · subst hm
      have h1 := h.1
      cases hlk : lookupField fb k with
      | none =>
        rw [hlk] at h1
        exact Bool.noConfusion h1
      | some w =>
        rw [hlk] at h1
        exact ⟨w, rfl, h1⟩
    · exact ih h.2 hm

theorem deepEqual_obj_parts {fa fb : JFields}
    (h : deepEqual (.obj fa) (.obj fb) = true) :
    fa.length = fb.length ∧ deepEqualFields fa fb = true := by
  simp only [deepEqual, Bool.and_eq_true, beq_iff_eq] at h
  exact h

theorem deepEqual_arr_parts {xs ys : List JsonVal}
    (h : deepEqual (.arr xs) (.arr ys) = true) :
    xs.length = ys.length ∧ deepEqualElems xs ys = true := by
  simp only [deepEqual, Bool.and_eq_true, beq_iff_eq] at h
  exact h

/-- The counting argument behind JS `deepEqual` on objects: equal key
*counts* plus "every key of `a` occurs in `b`" force, when `a` has no
duplicate keys, that every key of `b` occurs in `a` as well. -/
theorem deepEqual_obj_mem_keys {fa fb : JFields}
    (hlen : fa.length = fb.length) (hnd : (keysOf fa).Nodup)
    (hde : deepEqualFields fa fb = true) {k : JStr}
    (h : k ∈ keysOf fb) : k ∈ keysOf fa := by
  classical
  have hsub : (keysOf fa).toFinset ⊆ (keysOf fb).toFinset := by
    intro x hx
    rw [List.mem_toFinset] at hx ⊢
    have hs := lookup_isSome_of_mem_keysOf hx
    cases hlk : lookupField fa x with
    | none =>
      rw [hlk] at hs
      cases hs
    | some v =>
      obtain ⟨w, hw, _⟩ := deepEqualFields_elim hde (mem_of_lookupField hlk)
      exact mem_keysOf_of_lookup_isSome (by rw [hw]; rfl)
  have h1 : (keysOf fa).length = fa.length := by rw [keysOf, List.length_map]
  have h2 : (keysOf fb).length = fb.length := by rw [keysOf, List.length_map]
  have hca : (keysOf fa).toFinset.card = fa.length := by
    rw [List.toFinset_card_of_nodup hnd, h1]
  have hcb : (keysOf fb).toFinset.card ≤ fb.length := by
    have := List.toFinset_card_le (keysOf fb)
    omega
  have heq : (keysOf fa).toFinset = (keysOf fb).toFinset :=
    Finset.eq_of_subset_of_card_le hsub (by omega)
  rw [← List.mem_toFinset, ← heq, List.mem_toFinset] at h
  exact h

theorem deepEqualElems_get (xs : List JsonVal) : ∀ (ys : List JsonVal),
    deepEqualElems xs ys = true → xs.length = ys.length →
    ∀ i, deepEqualOpt (xs.get? i) (ys.get? i) = true := by
  induction xs with
  | nil =>
    intro ys _ hlen i
    cases ys with
    | nil => cases i <;> rfl
    | cons b bs => simp at hlen
  | cons a as ih =>
    intro ys hde hlen i
    cases ys with
    | nil => exact Bool.noConfusion hde
    | cons b bs =>
      simp only [deepEqualElems, Bool.and_eq_true] at hde
      cases i with
      | zero => exact hde.1
      | succ n =>
        refine ih bs hde.2 ?_ n
        rw [List.length_cons, List.length_cons] at hlen
        omega

theorem mem_of_get_opt {xs : List JsonVal} : ∀ {i : Nat} {x : JsonVal},
    xs.get? i = some x → x ∈ xs := by
  induction xs with
  | nil => intro i x h; cases h
  | cons a as ih =>
    intro i x h
    cases i with
    | zero =>
      cases h
      exact List.mem_cons_self _ _
    | succ n => exact List.mem_cons_of_mem _ (ih h)

theorem deepEqualElems_self {xs : List JsonVal}
    (h : ∀ x ∈ xs, deepEqual x x = true) : deepEqualElems xs xs = true := by
  induction xs with
  | nil => rfl
  | cons a as ih =>
    simp only [deepEqualElems, Bool.and_eq_true]
    exact ⟨h a (List.mem_cons_self _ _),
      ih (fun x hx => h x (List.mem_cons_of_mem _ hx))⟩

/-- JS `deepEqual` is reflexive on representable (duplicate-key-free)
values. -/
theorem deepEqual_refl (v : JsonVal) (h : wfVal v = true) :
    deepEqual v v = true := by
  cases v with
  | null => rfl
  | bool b => simp [deepEqual]
  | num n => simp [deepEqual]
  | str s => simp [deepEqual]
  | arr xs =>
    simp only [deepEqual, Bool.and_eq_true, beq_iff_eq]
    refine ⟨trivial, deepEqualElems_self (fun x hx => ?_)⟩
    exact deepEqual_refl x (wfVal_of_mem_elems h hx)
  | obj fs =>
    simp only [deepEqual, Bool.and_eq_true, beq_iff_eq]
    refine ⟨trivial, deepEqualFields_intro (fun kv hkv => ?_)⟩
    obtain ⟨k, w⟩ := kv
    exact ⟨w, lookupField_of_mem_wf h hkv, deepEqual_refl w (wfVal_of_mem h hkv)⟩
termination_by sizeOf v
decreasing_by
  all_goals subst_vars
  · have h1 := List.sizeOf_lt_of_mem hx
    simp only [JsonVal.arr.sizeOf_spec]
    omega
  · have h1 := List.sizeOf_lt_of_mem hkv
    simp only [Prod.mk.sizeOf_spec] at h1
    simp only [JsonVal.obj.sizeOf_spec]
    omega

/-- Outside the object–object case, `merge` takes the user value
wholesale. -/
theorem mergeVals_eq_user {dv uv : JsonVal}
    (h : isObjVal dv = false ∨ isObjVal uv = false) : mergeVals dv uv = uv := by
  cases dv <;> cases uv <;>
    first
      | ((rw [mergeVals] <;> simp) <;> done)
      | (rcases h with h | h <;> simp [isObjVal] at h)

/-- `merge` preserves well-formedness (no duplicate keys anywhere), at
both the value and the object level. -/
theorem wf_merge_all : ∀ n : Nat,
    (∀ dv uv : JsonVal, sizeOf dv ≤ n → wfVal dv = true → wfVal uv = true →
      wfVal (mergeVals dv uv) = true) ∧
    (∀ d u : JFields, sizeOf d ≤ n → wfFields d = true → wfFields u = true →
      wfFields (mergeFields d u) = true) := by
  intro n
  induction n using Nat.strong_induction_on with
  | _ n ih =>
    constructor
    · intro dv uv hsz hwd hwu
      cases dv with
      | obj dfs =>
        cases uv with
        | obj ufs =>
          rw [show mergeVals (.obj dfs) (.obj ufs) =
            .obj (mergeFields dfs ufs) from by rw [mergeVals]]
          show wfFields (mergeFields dfs ufs) = true
          have hlt : sizeOf dfs < n := by
            simp only [JsonVal.obj.sizeOf_spec] at hsz
            omega
          exact (ih (sizeOf dfs) hlt).2 dfs ufs (Nat.le_refl _) hwd hwu
        | null =>
          rw [show mergeVals (.obj dfs) JsonVal.null = JsonVal.null from
            mergeVals_eq_user (Or.inr rfl)]
          exact hwu
        | bool b =>
          rw [show mergeVals (.obj dfs) (.bool b) = .bool b from
            mergeVals_eq_user (Or.inr rfl)]
          exact hwu
        | num m =>
          rw [show mergeVals (.obj dfs) (.num m) = .num m from
            mergeVals_eq_user (Or.inr rfl)]
          exact hwu
        | str sv =>
          rw [show mergeVals (.obj dfs) (.str sv) = .str sv from
            mergeVals_eq_user (Or.inr rfl)]
          exact hwu
        | arr xs =>
          rw [show mergeVals (.obj dfs) (.arr xs) = .arr xs from
            mergeVals_eq_user (Or.inr rfl)]
          exact hwu
      | null =>
        rw [show mergeVals JsonVal.null uv = uv from
          mergeVals_eq_user (Or.inl rfl)]
        exact hwu
      | bool b =>
        rw [show mergeVals (.bool b) uv = uv from
          mergeVals_eq_user (Or.inl rfl)]
        exact hwu
      | num m =>
        rw [show mergeVals (.num m) uv = uv from
          mergeVals_eq_user (Or.inl rfl)]
        exact hwu
      | str sv =>
        rw [show mergeVals (.str sv) uv = uv from
          mergeVals_eq_user (Or.inl rfl)]
        exact hwu
      | arr xs =>
        rw [show mergeVals (.arr xs) uv = uv from
          mergeVals_eq_user (Or.inl rfl)]
        exact hwu
    · intro d u hsz hwd hwu
      by_cases hemp : u.isEmpty
      · rw [mergeFields, if_pos hemp]
        exact hwd
      · rw [mergeFields, if_neg hemp]
        have hmk : ∀ ks : List JStr, ks.Nodup →
            wfFields (mergeKeys d u ks) = true := by
          intro ks
          induction ks with
          | nil =>
            intro _
            rw [mergeKeys]
            rfl
          | cons key rest ihk =>
            intro hnd
            rw [List.nodup_cons] at hnd
            rw [mergeKeys]
            cases hdl : lookupField d key with
            | none =>
              cases hul : lookupField u key with
              | none => exact ihk hnd.2
              | some uv' =>
                show wfFields ((key, uv') :: mergeKeys d u rest) = true
                simp only [wfFields, Bool.and_eq_true]
                refine ⟨⟨?_, wfVal_of_lookup hwu hul⟩, ihk hnd.2⟩
                rw [mergeKeys_lookup_not_mem d u rest key hnd.1]
                rfl
            | some dv' =>
              cases hul : lookupField u key with
              | none =>
                show wfFields ((key, dv') :: mergeKeys d u rest) = true
                simp only [wfFields, Bool.and_eq_true]
                refine ⟨⟨?_, wfVal_of_lookup hwd hdl⟩, ihk hnd.2⟩
                rw [mergeKeys_lookup_not_mem d u rest key hnd.1]
                rfl
              | some uv' =>
                show wfFields ((key, mergeVals dv' uv') :: mergeKeys d u rest) =
                  true
                simp only [wfFields, Bool.and_eq_true]
                have hlt : sizeOf dv' < n := by
                  have := lookupField_sizeOf hdl
                  omega
                refine ⟨⟨?_, (ih (sizeOf dv') hlt).1 dv' uv' (Nat.le_refl _)
                  (wfVal_of_lookup hwd hdl) (wfVal_of_lookup hwu hul)⟩,
                  ihk hnd.2⟩
                rw [mergeKeys_lookup_not_mem d u rest key hnd.1]
                rfl
        exact hmk _ (dedupKeys_nodup _)

theorem wfVal_mergeVals {dv uv : JsonVal} (hd : wfVal dv = true)
    (hu : wfVal uv = true) : wfVal (mergeVals dv uv) = true :=
  (wf_merge_all (sizeOf dv)).1 dv uv (Nat.le_refl _) hd hu

theorem wfFields_mergeFields {d u : JFields} (hd : wfFields d = true)
    (hu : wfFields u = true) : wfFields (mergeFields d u) = true :=
  (wf_merge_all (sizeOf d)).2 d u (Nat.le_refl _) hd hu

theorem mem_keysOf_iff_lookup {fs : JFields} {k : JStr} :
    k ∈ keysOf fs ↔ (lookupField fs k).isSome = true :=
  ⟨lookup_isSome_of_mem_keysOf, mem_keysOf_of_lookup_isSome⟩

/-- The merged object's key set is the union of the two key sets. -/
theorem keysOf_mergeFields_mem (d u : JFields) (k : JStr) :
    k ∈ keysOf (mergeFields d u) ↔ (k ∈ keysOf d ∨ k ∈ keysOf u) := by
  rw [mem_keysOf_iff_lookup, mergeFields_lookup, mergeLookupSpec,
      mem_keysOf_iff_lookup, mem_keysOf_iff_lookup]
  cases lookupField d k <;> cases lookupField u k <;> simp

theorem mem_keysOf_filter {p : JStr × JsonVal → Bool} {fs : JFields}
    {k : JStr} (h : k ∈ keysOf (fs.filter p)) : k ∈ keysOf fs := by
  rw [keysOf, List.mem_map] at h ⊢
  obtain ⟨kv, hkv, he⟩ := h
  exact ⟨kv, List.mem_of_mem_filter hkv, he⟩

/-- Duplicate-free lists over a decidable type with the same membership
have the same length. -/
theorem length_eq_of_nodup_set_eq {la lb : List JStr} (ha : la.Nodup)
    (hb : lb.Nodup) (h : ∀ x, x ∈ la ↔ x ∈ lb) : la.length = lb.length := by
  classical
  have e : la.toFinset = lb.toFinset := by
    ext x
    rw [List.mem_toFinset, List.mem_toFinset]
    exact h x
  calc la.length = la.toFinset.card := (List.toFinset_card_of_nodup ha).symm
    _ = lb.toFinset.card := by rw [e]
    _ = lb.length := List.toFinset_card_of_nodup hb

theorem deepEqualElems_of_forall_get : ∀ (xs ys : List JsonVal),
    xs.length = ys.length →
    (∀ i, deepEqualOpt (xs.get? i) (ys.get? i) = true) →
    deepEqualElems xs ys = true := by
  intro xs
  induction xs with
  | nil => intro ys _ _; rfl
  | cons a as ih =>
    intro ys hlen h
    cases ys with
    | nil => simp at hlen
    | cons b bs =>
      simp only [deepEqualElems, Bool.and_eq_true]
      refine ⟨h 0, ih bs ?_ (fun i => h (i + 1))⟩
      rw [List.length_cons, List.length_cons] at hlen
      omega

/-- JS `deepEqual` is symmetric on representable values: the key-count
equality plus the one-directional per-key check imply the reverse
check. -/
theorem deepEqual_symm (a : JsonVal) : ∀ b : JsonVal, wfVal a = true →
    wfVal b = true → deepEqual a b = true → deepEqual b a = true := by
  intro b hwa hwb h
  cases a with
  | null =>
    cases b <;> first | rfl | exact Bool.noConfusion h
  | bool x =>
    cases b with
    | bool y =>
      simp only [deepEqual, beq_iff_eq] at h ⊢
      exact h.symm
    | null => exact Bool.noConfusion h
    | num y => exact Bool.noConfusion h
    | str y => exact Bool.noConfusion h
    | arr ys => exact Bool.noConfusion h
    | obj fb => exact Bool.noConfusion h
  | num x =>
    cases b with
    | num y =>
      simp only [deepEqual, beq_iff_eq] at h ⊢
      exact h.symm
    | null => exact Bool.noConfusion h
    | bool y => exact Bool.noConfusion h
    | str y => exact Bool.noConfusion h
    | arr ys => exact Bool.noConfusion h
    | obj fb => exact Bool.noConfusion h
  | str x =>
    cases b with
    | str y =>
      simp only [deepEqual, beq_iff_eq] at h ⊢
      exact h.symm
    | null => exact Bool.noConfusion h
    | bool y => exact Bool.noConfusion h
    | num y => exact Bool.noConfusion h
    | arr ys => exact Bool.noConfusion h
    | obj fb => exact Bool.noConfusion h
  | arr xs =>
    cases b with
    | arr ys =>
      obtain ⟨hlen, hde⟩ := deepEqual_arr_parts h
      simp only [deepEqual, Bool.and_eq_true, beq_iff_eq]
      refine ⟨hlen.symm, ?_⟩
      refine deepEqualElems_of_forall_get ys xs hlen.symm (fun i => ?_)
      have hq := deepEqualElems_get xs ys hde hlen i
      cases hx : xs.get? i with
      | none =>
        rw [hx] at hq
        cases hy : ys.get? i with
        | none => rfl
        | some y =>
          rw [hy] at hq
          exact Bool.noConfusion hq
      | some x =>
        rw [hx] at hq
        cases hy : ys.get? i with
        | none =>
          rw [hy] at hq
          exact Bool.noConfusion hq
        | some y =>
          rw [hy] at hq
          show deepEqual y x = true
          exact deepEqual_symm x y (wfVal_of_mem_elems hwa (mem_of_get_opt hx))
            (wfVal_of_mem_elems hwb (mem_of_get_opt hy)) hq
    | null => exact Bool.noConfusion h
    | bool y => exact Bool.noConfusion h
    | num y => exact Bool.noConfusion h
    | str y => exact Bool.noConfusion h
    | obj fb => exact Bool.noConfusion h
  | obj fa =>
    cases b with
    | obj fb =>
      obtain ⟨hlen, hdef⟩ := deepEqual_obj_parts h
      simp only [deepEqual, Bool.and_eq_true, beq_iff_eq]
      refine ⟨hlen.symm, deepEqualFields_intro (fun kv hkv => ?_)⟩
      obtain ⟨k, w⟩ := kv
      have hlb : lookupField fb k = some w := lookupField_of_mem_wf hwb hkv
      have hkb : k ∈ keysOf fb :=
        mem_keysOf_of_lookup_isSome (by rw [hlb]; rfl)
      have hka : k ∈ keysOf fa :=
        deepEqual_obj_mem_keys hlen (wfFields_keysOf_nodup hwa) hdef hkb
      have hsa := lookup_isSome_of_mem_keysOf hka
      cases hla : lookupField fa k with
      | none =>
        rw [hla] at hsa
        cases hsa
      | some v =>
        obtain ⟨w2, hw2, hde2⟩ :=
          deepEqualFields_elim hdef (mem_of_lookupField hla)
        rw [hlb] at hw2
        cases hw2
        exact ⟨v, rfl, deepEqual_symm v w (wfVal_of_lookup hwa hla)
          (wfVal_of_mem hwb hkv) hde2⟩
    | null => exact Bool.noConfusion h
    | bool y => exact Bool.noConfusion h
    | num y => exact Bool.noConfusion h
    | str y => exact Bool.noConfusion h
    | arr ys => exact Bool.noConfusion h
termination_by sizeOf a
decreasing_by
  all_goals subst_vars
  all_goals
    first
      | (have h1 := List.sizeOf_lt_of_mem (mem_of_get_opt hx)
         simp only [JsonVal.arr.sizeOf_spec]
         omega)
      | (have h1 := lookupField_sizeOf hla
         simp only [JsonVal.obj.sizeOf_spec]
         omega)

/-- When the user value deep-equals the default value, the merged value
stays deep-equal to the default: merging two deep-equal objects
reproduces the default's bindings up to deep equality. -/
theorem mergeVals_deepEqual (dv : JsonVal) : ∀ uv : JsonVal,
    wfVal dv = true → wfVal uv = true → deepEqual uv dv = true →
    deepEqual dv (mergeVals dv uv) = true := by
  intro uv hwd hwu h
  cases dv with
  | obj dfs =>
    cases uv with
    | obj ufs =>
      rw [show mergeVals (.obj dfs) (.obj ufs) = .obj (mergeFields dfs ufs)
        from by rw [mergeVals]]
      obtain ⟨hlen, hdef⟩ := deepEqual_obj_parts h
      have hwfd : wfFields dfs = true := hwd
      have hwfu : wfFields ufs = true := hwu
      have hkey : ∀ k, k ∈ keysOf dfs ↔ k ∈ keysOf ufs := by
        intro k
        constructor
        · intro hk
          exact deepEqual_obj_mem_keys hlen (wfFields_keysOf_nodup hwfu)
            hdef hk
        · intro hk
          have hs := lookup_isSome_of_mem_keysOf hk
          cases hlk : lookupField ufs k with
          | none =>
            rw [hlk] at hs
            cases hs
          | some w =>
            obtain ⟨w2, hw2, _⟩ :=
              deepEqualFields_elim hdef (mem_of_lookupField hlk)
            exact mem_keysOf_of_lookup_isSome (by rw [hw2]; rfl)
      have hwfm : wfFields (mergeFields dfs ufs) = true :=
        wfFields_mergeFields hwfd hwfu
      have hlenm : dfs.length = (mergeFields dfs ufs).length := by
        have hx := length_eq_of_nodup_set_eq (wfFields_keysOf_nodup hwfd)
          (wfFields_keysOf_nodup hwfm) (fun k => by
            rw [keysOf_mergeFields_mem]
            constructor
            · intro hk
              exact Or.inl hk
            · rintro (hk | hk)
              · exact hk
              · exact (hkey k).2 hk)
        rw [keysOf, keysOf, List.length_map, List.length_map] at hx
        exact hx
      simp only [deepEqual, Bool.and_eq_true, beq_iff_eq]
      refine ⟨hlenm, deepEqualFields_intro (fun kv hkv => ?_)⟩
      obtain ⟨k, dv'⟩ := kv
      have hld : lookupField dfs k = some dv' := lookupField_of_mem_wf hwfd hkv
      have hku : k ∈ keysOf ufs :=
        (hkey k).1 (mem_keysOf_of_lookup_isSome (by rw [hld]; rfl))
      have hsu := lookup_isSome_of_mem_keysOf hku
      cases hulk : lookupField ufs k with
      | none =>
        rw [hulk] at hsu
        cases hsu
      | some uv' =>
        obtain ⟨w, hw, hde2⟩ :=
          deepEqualFields_elim hdef (mem_of_lookupField hulk)
        rw [hld] at hw
        cases hw
        refine ⟨mergeVals dv' uv', ?_, ?_⟩
        · rw [mergeFields_lookup, mergeLookupSpec, hld, hulk]
        · exact mergeVals_deepEqual dv' uv' (wfVal_of_lookup hwfd hld)
            (wfVal_of_lookup hwfu hulk) hde2
    | null =>
      rw [show mergeVals (.obj dfs) JsonVal.null = JsonVal.null from
        mergeVals_eq_user (Or.inr rfl)]
      exact deepEqual_symm JsonVal.null (.obj dfs) hwu hwd h
    | bool y =>
      rw [show mergeVals (.obj dfs) (.bool y) = .bool y from
        mergeVals_eq_user (Or.inr rfl)]
      exact deepEqual_symm (.bool y) (.obj dfs) hwu hwd h
    | num y =>
      rw [show mergeVals (.obj dfs) (.num y) = .num y from
        mergeVals_eq_user (Or.inr rfl)]
      exact deepEqual_symm (.num y) (.obj dfs) hwu hwd h
    | str y =>
      rw [show mergeVals (.obj dfs) (.str y) = .str y from
        mergeVals_eq_user (Or.inr rfl)]
      exact deepEqual_symm (.str y) (.obj dfs) hwu hwd h
    | arr ys =>
      rw [show mergeVals (.obj dfs) (.arr ys) = .arr ys from
        mergeVals_eq_user (Or.inr rfl)]
      exact deepEqual_symm (.arr ys) (.obj dfs) hwu hwd h
  | null =>
    rw [show mergeVals JsonVal.null uv = uv from
      mergeVals_eq_user (Or.inl rfl)]
    exact deepEqual_symm uv JsonVal.null hwu hwd h
  | bool x =>
    rw [show mergeVals (.bool x) uv = uv from
      mergeVals_eq_user (Or.inl rfl)]
    exact deepEqual_symm uv (.bool x) hwu hwd h
  | num x =>
    rw [show mergeVals (.num x) uv = uv from
      mergeVals_eq_user (Or.inl rfl)]
    exact deepEqual_symm uv (.num x) hwu hwd h
  | str x =>
    rw [show mergeVals (.str x) uv = uv from
      mergeVals_eq_user (Or.inl rfl)]
    exact deepEqual_symm uv (.str x) hwu hwd h
  | arr xs =>
    rw [show mergeVals (.arr xs) uv = uv from
      mergeVals_eq_user (Or.inl rfl)]
    exact deepEqual_symm uv (.arr xs) hwu hwd h
termination_by sizeOf dv
decreasing_by
  subst_vars
  have h1 := lookupField_sizeOf hld
  simp only [JsonVal.obj.sizeOf_spec]
  omega

/-- Deep-equal trees are observationally equal: `get` yields deep-equal
results (or is undefined on both) at every path. -/
theorem deepEqual_getPath (p : List JStr) : ∀ a b : JsonVal,
    wfVal a = true → wfVal b = true → deepEqual a b = true →
    deepEqualOpt (getPath a p) (getPath b p) = true := by
  induction p with
  | nil =>
    intro a b _ _ h
    exact h
  | cons k rest ih =>
    intro a b hwa hwb h
    cases a with
    | null =>
      cases b <;> first | rfl | exact Bool.noConfusion h
    | bool x =>
      cases b <;> first | rfl | exact Bool.noConfusion h
    | num x =>
      cases b <;> first | rfl | exact Bool.noConfusion h
    | str x =>
      cases b <;> first | rfl | exact Bool.noConfusion h
    | arr xs =>
      cases b with
      | arr ys =>
        obtain ⟨hlen, hde⟩ := deepEqual_arr_parts h
        simp only [getPath]
        cases parseCanonicalIndex k with
        | none => rfl
        | some i =>
          show deepEqualOpt
            (match xs.get? i with
             | some w => getPath w rest
             | none => none)
            (match ys.get? i with
             | some w => getPath w rest
             | none => none) = true
          have hq := deepEqualElems_get xs ys hde hlen i
          cases hx : xs.get? i with
          | none =>
            rw [hx] at hq
            cases hy : ys.get? i with
            | none => rfl
            | some y =>
              rw [hy] at hq
              exact Bool.noConfusion hq
          | some x =>
            rw [hx] at hq
            cases hy : ys.get? i with
            | none =>
              rw [hy] at hq
              exact Bool.noConfusion hq
            | some y =>
              rw [hy] at hq
              exact ih x y (wfVal_of_mem_elems hwa (mem_of_get_opt hx))
                (wfVal_of_mem_elems hwb (mem_of_get_opt hy)) hq
      | null => exact Bool.noConfusion h
      | bool y => exact Bool.noConfusion h
      | num y => exact Bool.noConfusion h
      | str y => exact Bool.noConfusion h
      | obj fb => exact Bool.noConfusion h
    | obj fa =>
      cases b with
      | obj fb =>
        obtain ⟨hlen, hdef⟩ := deepEqual_obj_parts h
        simp only [getPath]
        cases hla : lookupField fa k with
        | some v =>
          obtain ⟨w, hw, hde⟩ :=
            deepEqualFields_elim hdef (mem_of_lookupField hla)
          rw [hw]
          exact ih v w (wfVal_of_lookup hwa hla) (wfVal_of_lookup hwb hw) hde
        | none =>
          have hlb : lookupField fb k = none := by
            cases hlb : lookupField fb k with
            | none => rfl
            | some w =>
              have hka := deepEqual_obj_mem_keys hlen
                (wfFields_keysOf_nodup hwa) hdef
                (mem_keysOf_of_lookup_isSome (by rw [hlb]; rfl))
              have hsa := lookup_isSome_of_mem_keysOf hka
              rw [hla] at hsa
              cases hsa
          rw [hlb]
          rfl
      | null => exact Bool.noConfusion h
      | bool y => exact Bool.noConfusion h
      | num y => exact Bool.noConfusion h
      | str y => exact Bool.noConfusion h
      | arr ys => exact Bool.noConfusion h

/-- The round-trip at the object level: merging the defaults with the
delta `diff(overrides, defaults)` produces a tree deep-equal to merging
the defaults with the full overrides. -/
theorem diff_merge_roundtrip (d u : JFields) (hwd : wfFields d = true)
    (hwu : wfFields u = true) :
    deepEqual (.obj (mergeFields d (diffFields u d)))
      (.obj (mergeFields d u)) = true := by
  have hwu' : wfFields (diffFields u d) = true := wfFields_filter _ hwu
  have hwA : wfFields (mergeFields d (diffFields u d)) = true :=
    wfFields_mergeFields hwd hwu'
  have hwB : wfFields (mergeFields d u) = true := wfFields_mergeFields hwd hwu
  have hdiffl : ∀ k, lookupField (diffFields u d) k =
      (match lookupField u k with
       | some uv =>
         if deepEqualOpt (some uv) (lookupField d k) = true then none
         else some uv
       | none => none) := by
    intro k
    rw [diffFields, lookupField_filter _ u (wfFields_keysOf_nodup hwu) k]
    cases lookupField u k with
    | none => rfl
    | some uv =>
      show (if !deepEqualOpt (some uv) (lookupField d k) then some uv
        else none) =
        (if deepEqualOpt (some uv) (lookupField d k) = true then none
         else some uv)
      cases deepEqualOpt (some uv) (lookupField d k) <;> rfl
  have hkeys : ∀ k, k ∈ keysOf (mergeFields d (diffFields u d)) ↔
      k ∈ keysOf (mergeFields d u) := by
    intro k
    rw [keysOf_mergeFields_mem, keysOf_mergeFields_mem]
    constructor
    · rintro (hk | hk)
      · exact Or.inl hk
      · exact Or.inr (mem_keysOf_filter hk)
    · rintro (hk | hk)
      · exact Or.inl hk
      · by_cases hkd : k ∈ keysOf d
        · exact Or.inl hkd
        · refine Or.inr ?_
          have hlu := lookup_isSome_of_mem_keysOf hk
          cases hul : lookupField u k with
          | none =>
            rw [hul] at hlu
            cases hlu
          | some uv =>
            refine mem_keysOf_of_lookup_isSome ?_
            rw [hdiffl k, hul, lookupField_eq_none_of_not_mem hkd]
            rfl
  have hlen : (mergeFields d (diffFields u d)).length =
      (mergeFields d u).length := by
    have h1 := length_eq_of_nodup_set_eq (wfFields_keysOf_nodup hwA)
      (wfFields_keysOf_nodup hwB) hkeys
    rw [keysOf, keysOf, List.length_map, List.length_map] at h1
    exact h1
  simp only [deepEqual, Bool.and_eq_true, beq_iff_eq]
  refine ⟨hlen, deepEqualFields_intro (fun kv hkv => ?_)⟩
  obtain ⟨k, v⟩ := kv
  have hlA : lookupField (mergeFields d (diffFields u d)) k = some v :=
    lookupField_of_mem_wf hwA hkv
  rw [mergeFields_lookup, mergeLookupSpec] at hlA
  have hBspec := mergeFields_lookup d u k
  rw [mergeLookupSpec] at hBspec
  cases hul : lookupField u k with
  | none =>
    have hdn : lookupField (diffFields u d) k = none := by
      rw [hdiffl k, hul]
    rw [hdn] at hlA
    rw [hul] at hBspec
    cases hdl : lookupField d k with
    | none =>
      rw [hdl] at hlA
      exact Option.noConfusion hlA
    | some dv =>
      rw [hdl] at hlA hBspec
      cases hlA
      exact ⟨v, hBspec, deepEqual_refl v (wfVal_of_lookup hwd hdl)⟩
  | some uv =>
    rw [hul] at hBspec
    by_cases hdeq : deepEqualOpt (some uv) (lookupField d k) = true
    · have hdn : lookupField (diffFields u d) k = none := by
        rw [hdiffl k, hul]
        show (if deepEqualOpt (some uv) (lookupField d k) = true then none
          else some uv) = none
        rw [if_pos hdeq]
      rw [hdn] at hlA
      cases hdl : lookupField d k with
      | none =>
        rw [hdl] at hdeq
        exact Bool.noConfusion hdeq
      | some dv =>
        rw [hdl] at hlA hBspec hdeq
        cases hlA
        refine ⟨mergeVals v uv, hBspec, ?_⟩
        exact mergeVals_deepEqual v uv (wfVal_of_lookup hwd hdl)
          (wfVal_of_lookup hwu hul) hdeq
    · have hds : lookupField (diffFields u d) k = some uv := by
        rw [hdiffl k, hul]
        show (if deepEqualOpt (some uv) (lookupField d k) = true then none
          else some uv) = some uv
        rw [if_neg hdeq]
      rw [hds] at hlA
      cases hdl : lookupField d k with
      | none =>
        rw [hdl] at hlA hBspec
        cases hlA
        exact ⟨v, hBspec, deepEqual_refl v (wfVal_of_lookup hwu hul)⟩
      | some dv =>
        rw [hdl] at hlA hBspec
        cases hlA
        exact ⟨mergeVals dv uv, hBspec,
          deepEqual_refl (mergeVals dv uv)
            (wfVal_mergeVals (wfVal_of_lookup hwd hdl)
              (wfVal_of_lookup hwu hul))⟩

/-- C1: for all well-formed `(defaults, overrides)` pairs,
`merge(defaults, diff(overrides, defaults))` and
`merge(defaults, overrides)` yield deep-equal effective values at every
path (hence the same effective value at every leaf path). -/
theorem C1_diff_merge_roundtrip (d u : JFields) (hwd : wfFields d = true)
    (hwu : wfFields u = true) (p : List JStr) :
    deepEqualOpt (getPath (.obj (mergeFields d (diffFields u d))) p)
      (getPath (.obj (mergeFields d u)) p) = true :=
  deepEqual_getPath p _ _
    (wfFields_mergeFields hwd (wfFields_filter _ hwu))
    (wfFields_mergeFields hwd hwu) (diff_merge_roundtrip d u hwd hwu)

/-- Witness for C1 at a concrete input: defaults `{a: 1}`, overrides
`{a: 1, b: 2}` (so the delta is `{b: 2}`), observed at leaf path `b`. -/
theorem C1_witness :
    wfFields [(['a'], JsonVal.num 1)] = true ∧
    wfFields [(['a'], JsonVal.num 1), (['b'], JsonVal.num 2)] = true ∧
    deepEqualOpt
      (getPath (.obj (mergeFields [(['a'], JsonVal.num 1)]
        (diffFields [(['a'], JsonVal.num 1), (['b'], JsonVal.num 2)]
          [(['a'], JsonVal.num 1)]))) [['b']])
      (getPath (.obj (mergeFields [(['a'], JsonVal.num 1)]
        [(['a'], JsonVal.num 1), (['b'], JsonVal.num 2)])) [['b']]) = true :=
  ⟨by decide, by decide,
    C1_diff_merge_roundtrip [(['a'], JsonVal.num 1)]
      [(['a'], JsonVal.num 1), (['b'], JsonVal.num 2)]
      (by decide) (by decide) [['b']]⟩

/-! ## Dotted store paths: `changedPaths` and `customPaths` (C8) -/

theorem leafPathsFields_nil_eq : leafPathsFields [] = [] := by
  rw [leafPathsFields]

theorem leafPathsFields_cons_eq (k : JStr) (v : JsonVal) (rest : JFields) :
    leafPathsFields ((k, v) :: rest) =
      (match v with
       | .obj gfs =>
         (match leafPathsFields gfs with
          | [] => [[k]]
          | nested => nested.map (fun ps => k :: ps))
       | _ => [[k]]) ++ leafPathsFields rest := by
  cases v <;> rw [leafPathsFields] <;> first | rfl | simp

theorem getAllPathsFields_nil_eq (pre : JStr) :
    getAllPathsFields [] pre = [] := by
  rw [getAllPathsFields]

theorem getAllPathsFields_cons_eq (k : JStr) (v : JsonVal) (rest : JFields)
    (pre : JStr) :
    getAllPathsFields ((k, v) :: rest) pre =
      (match v with
       | .obj gfs =>
         (match getAllPathsFields gfs
             (if pre.isEmpty then k else pre ++ '.' :: k) with
          | [] => [if pre.isEmpty then k else pre ++ '.' :: k]
          | nested => nested)
       | _ => [if pre.isEmpty then k else pre ++ '.' :: k]) ++
        getAllPathsFields rest pre := by
  cases v <;> rw [getAllPathsFields] <;> first | rfl | simp

theorem lookupField_cons_self (k : JStr) (v : JsonVal) (rest : JFields) :
    lookupField ((k, v) :: rest) k = some v := by
  rw [lookupField, if_pos rfl]

theorem mem_keysOf_head (k : JStr) (v : JsonVal) (rest : JFields) :
    k ∈ keysOf ((k, v) :: rest) := by
  rw [keysOf, List.map_cons]
  exact List.mem_cons_self _ _

theorem mem_keysOf_tail {k' : JStr} (k : JStr) (v : JsonVal) {rest : JFields}
    (h : k' ∈ keysOf rest) : k' ∈ keysOf ((k, v) :: rest) := by
  rw [keysOf, List.map_cons]
  refine List.mem_cons_of_mem _ ?_
  rw [keysOf] at h
  exact h

/-- Every enumerated atomic path is non-empty and starts with a key of the
object. -/
theorem leafPathsFields_head {fs : JFields} : ∀ {ps : List JStr},
    ps ∈ leafPathsFields fs → ∃ k t, ps = k :: t ∧ k ∈ keysOf fs := by
  induction fs with
  | nil =>
    intro ps h
    rw [leafPathsFields_nil_eq] at h
    cases h
  | cons kv rest ih =>
    obtain ⟨k, v⟩ := kv
    intro ps h
    rw [leafPathsFields_cons_eq, List.mem_append] at h
    rcases h with h | h
    · cases v with
      | obj gfs =>
        have h' : ps ∈ (match leafPathsFields gfs with
          | [] => [[k]]
          | nested => nested.map (fun ps => k :: ps)) := h
        cases hlp : leafPathsFields gfs with
        | nil =>
          rw [hlp] at h'
          have he : ps = [k] := by simpa using h'
          exact ⟨k, [], he, mem_keysOf_head _ _ _⟩
        | cons q qs =>
          rw [hlp] at h'
          have h2 : ps ∈ (q :: qs).map (fun ps => k :: ps) := h'
          rw [List.mem_map] at h2
          obtain ⟨ps', _, he⟩ := h2
          exact ⟨k, ps', he.symm, mem_keysOf_head _ _ _⟩
      | null => exact ⟨k, [], by simpa using h, mem_keysOf_head _ _ _⟩
      | bool b => exact ⟨k, [], by simpa using h, mem_keysOf_head _ _ _⟩
      | num n => exact ⟨k, [], by simpa using h, mem_keysOf_head _ _ _⟩
      | str sv => exact ⟨k, [], by simpa using h, mem_keysOf_head _ _ _⟩
      | arr xs => exact ⟨k, [], by simpa using h, mem_keysOf_head _ _ _⟩
    · obtain ⟨k', t, he, hk⟩ := ih h
      exact ⟨k', t, he, mem_keysOf_tail _ _ hk⟩

/-- On a dot-free object every component of every enumerated atomic path
is a non-empty, dot-free key (size-bounded form for the induction). -/
theorem leafPathsFields_components_aux : ∀ n : Nat, ∀ fs : JFields,
    sizeOf fs ≤ n → ∀ ps : List JStr, dotFreeFields fs = true →
    ps ∈ leafPathsFields fs →
    ∀ c ∈ ps, c.isEmpty = false ∧ c.contains '.' = false := by
  intro n
  induction n using Nat.strong_induction_on with
  | _ n ih =>
    intro fs hsz ps hdf hps c hc
    cases fs with
    | nil =>
      rw [leafPathsFields_nil_eq] at hps
      cases hps
    | cons kv rest =>
      obtain ⟨k, v⟩ := kv
      have hszrest : sizeOf rest < n := by
        simp only [List.cons.sizeOf_spec] at hsz
        omega
      simp only [dotFreeFields, Bool.and_eq_true, Bool.not_eq_true'] at hdf
      rw [leafPathsFields_cons_eq, List.mem_append] at hps
      rcases hps with hps | hps
      · cases v with
        | obj gfs =>
          have hszg : sizeOf gfs < n := by
            simp only [List.cons.sizeOf_spec, Prod.mk.sizeOf_spec,
              JsonVal.obj.sizeOf_spec] at hsz
            omega
          have h' : ps ∈ (match leafPathsFields gfs with
            | [] => [[k]]
            | nested => nested.map (fun ps => k :: ps)) := hps
          cases hlp : leafPathsFields gfs with
          | nil =>
            rw [hlp] at h'
            have he : ps = [k] := by simpa using h'
            subst he
            have hck : c = k := by simpa using hc
            subst hck
            exact ⟨hdf.1.1.1, hdf.1.1.2⟩
          | cons q qs =>
            rw [hlp] at h'
            have h2 : ps ∈ (q :: qs).map (fun ps => k :: ps) := h'
            rw [List.mem_map] at h2
            obtain ⟨ps', hps', he⟩ := h2
            subst he
            rcases List.mem_cons.mp hc with hck | hcp
            · subst hck
              exact ⟨hdf.1.1.1, hdf.1.1.2⟩
            · exact ih (sizeOf gfs) hszg gfs (Nat.le_refl _) ps' hdf.1.2
                (by rw [hlp]; exact hps') c hcp
        | null =>
          have he : ps = [k] := by simpa using hps
          subst he
          have hck : c = k := by simpa using hc
          subst hck
          exact ⟨hdf.1.1.1, hdf.1.1.2⟩
        | bool b =>
          have he : ps = [k] := by simpa using hps
          subst he
          have hck : c = k := by simpa using hc
          subst hck
          exact ⟨hdf.1.1.1, hdf.1.1.2⟩
        | num m =>
          have he : ps = [k] := by simpa using hps
          subst he
          have hck : c = k := by simpa using hc
          subst hck
          exact ⟨hdf.1.1.1, hdf.1.1.2⟩
        | str sv =>
          have he : ps = [k] := by simpa using hps
          subst he
          have hck : c = k := by simpa using hc
          subst hck
          exact ⟨hdf.1.1.1, hdf.1.1.2⟩
        | arr xs =>
          have he : ps = [k] := by simpa using hps
          subst he
          have hck : c = k := by simpa using hc
          subst hck
          exact ⟨hdf.1.1.1, hdf.1.1.2⟩
      · exact ih (sizeOf rest) hszrest rest (Nat.le_refl _) ps hdf.2 hps c hc

theorem leafPathsFields_components (fs : JFields)
    (hdf : dotFreeFields fs = true) {ps : List JStr}
    (hps : ps ∈ leafPathsFields fs) :
    ∀ c ∈ ps, c.isEmpty = false ∧ c.contains '.' = false :=
  leafPathsFields_components_aux (sizeOf fs) fs (Nat.le_refl _) ps hdf hps

theorem jsGetStep_cons_self (k : JStr) (v : JsonVal) (rest : JFields) :
    jsGetStep (some (.obj ((k, v) :: rest))) k = some v :=
  lookupField_cons_self k v rest

theorem getPath_cons_self (k : JStr) (v : JsonVal) (rest : JFields)
    (t : List JStr) :
    getPath (.obj ((k, v) :: rest)) (k :: t) = getPath v t := by
  simp only [getPath, lookupField_cons_self]

/-- Along an atomic path of a well-formed object, the store's
optional-chaining fold and the specification's component `get` coincide:
every step is an own-property read on a plain object, where
`current?.[key]` is exactly the field lookup (size-bounded form). -/
theorem leafPath_fold_aux : ∀ n : Nat, ∀ fs : JFields, sizeOf fs ≤ n →
    wfFields fs = true → ∀ ps ∈ leafPathsFields fs,
    ps.foldl jsGetStep (some (.obj fs)) = getPath (.obj fs) ps := by
  intro n
  induction n using Nat.strong_induction_on with
  | _ n ih =>
    intro fs hsz hwf ps hps
    cases fs with
    | nil =>
      rw [leafPathsFields_nil_eq] at hps
      cases hps
    | cons kv rest =>
      obtain ⟨k, v⟩ := kv
      simp only [wfFields, Bool.and_eq_true] at hwf
      have hszrest : sizeOf rest < n := by
        simp only [List.cons.sizeOf_spec] at hsz
        omega
      rw [leafPathsFields_cons_eq, List.mem_append] at hps
      rcases hps with hps | hps
      · cases v with
        | obj gfs =>
          have hszg : sizeOf gfs < n := by
            simp only [List.cons.sizeOf_spec, Prod.mk.sizeOf_spec,
              JsonVal.obj.sizeOf_spec] at hsz
            omega
          have h' : ps ∈ (match leafPathsFields gfs with
            | [] => [[k]]
            | nested => nested.map (fun ps => k :: ps)) := hps
          cases hlp : leafPathsFields gfs with
          | nil =>
            rw [hlp] at h'
            have he : ps = [k] := by simpa using h'
            subst he
            rw [getPath_cons_self]
            show jsGetStep (some (.obj ((k, JsonVal.obj gfs) :: rest))) k =
              getPath (JsonVal.obj gfs) []
            exact jsGetStep_cons_self k (JsonVal.obj gfs) rest
          | cons q qs =>
            rw [hlp] at h'
            have h2 : ps ∈ (q :: qs).map (fun ps => k :: ps) := h'
            rw [List.mem_map] at h2
            obtain ⟨ps', hps', he⟩ := h2
            subst he
            rw [getPath_cons_self]
            show List.foldl jsGetStep
                (jsGetStep (some (.obj ((k, JsonVal.obj gfs) :: rest))) k)
                ps' = getPath (JsonVal.obj gfs) ps'
            rw [jsGetStep_cons_self]
            exact ih (sizeOf gfs) hszg gfs (Nat.le_refl _) hwf.1.2 ps'
              (by rw [hlp]; exact hps')
        | null =>
          have he : ps = [k] := by simpa using hps
          subst he
          rw [getPath_cons_self]
          show jsGetStep (some (.obj ((k, JsonVal.null) :: rest))) k =
            getPath JsonVal.null []
          exact jsGetStep_cons_self k JsonVal.null rest
        | bool b =>
          have he : ps = [k] := by simpa using hps
          subst he
          rw [getPath_cons_self]
          show jsGetStep (some (.obj ((k, JsonVal.bool b) :: rest))) k =
            getPath (JsonVal.bool b) []
          exact jsGetStep_cons_self k (JsonVal.bool b) rest
        | num m =>
          have he : ps = [k] := by simpa using hps
          subst he
          rw [getPath_cons_self]
          show jsGetStep (some (.obj ((k, JsonVal.num m) :: rest))) k =
            getPath (JsonVal.num m) []
          exact jsGetStep_cons_self k (JsonVal.num m) rest
        | str sv =>
          have he : ps = [k] := by simpa using hps
          subst he
          rw [getPath_cons_self]
          show jsGetStep (some (.obj ((k, JsonVal.str sv) :: rest))) k =
            getPath (JsonVal.str sv) []
          exact jsGetStep_cons_self k (JsonVal.str sv) rest
        | arr xs =>
          have he : ps = [k] := by simpa using hps
          subst he
          rw [getPath_cons_self]
          show jsGetStep (some (.obj ((k, JsonVal.arr xs) :: rest))) k =
            getPath (JsonVal.arr xs) []
          exact jsGetStep_cons_self k (JsonVal.arr xs) rest
      · obtain ⟨k', t, he, hk'⟩ := leafPathsFields_head hps
        subst he
        have hne : ¬(k = k') := by
          intro e
          subst e
          have hs := lookup_isSome_of_mem_keysOf hk'
          rw [Option.isNone_iff_eq_none.mp hwf.1.1] at hs
          cases hs
        have hstep2 : getPath (.obj ((k, v) :: rest)) (k' :: t) =
            getPath (.obj rest) (k' :: t) := by
          simp only [getPath, lookupField, if_neg hne]
        rw [hstep2]
        show List.foldl jsGetStep
            (jsGetStep (some (.obj ((k, v) :: rest))) k') t =
          getPath (.obj rest) (k' :: t)
        rw [show jsGetStep (some (.obj ((k, v) :: rest))) k' =
            jsGetStep (some (.obj rest)) k' from by
          show lookupField ((k, v) :: rest) k' = lookupField rest k'
          rw [lookupField, if_neg hne]]
        exact ih (sizeOf rest) hszrest rest (Nat.le_refl _) hwf.2 (k' :: t) hps

theorem leafPath_fold (fs : JFields) (hwf : wfFields fs = true)
    {ps : List JStr} (hps : ps ∈ leafPathsFields fs) :
    ps.foldl jsGetStep (some (.obj fs)) = getPath (.obj fs) ps :=
  leafPath_fold_aux (sizeOf fs) fs (Nat.le_refl _) hwf ps hps

/-- No component of an enumerated atomic path of a dot-free object
contains a dot. -/
theorem leafPathsFields_no_dots (fs : JFields)
    (hdf : dotFreeFields fs = true) {ps : List JStr}
    (hps : ps ∈ leafPathsFields fs) : ∀ p ∈ ps, '.' ∉ p := by
  intro p hp hdot
  have hc := (leafPathsFields_components fs hdf hps p hp).2
  have h2 : List.elem '.' p = true := List.elem_iff.mpr hdot
  have h3 : List.elem '.' p = false := hc
  rw [h3] at h2
  cases h2

/-- On a dot-free, well-formed object, the store's dotted-string read at
one of its own atomic paths agrees with the specification's
component-path `get`. -/
theorem getValueByPath_leaf (fs : JFields) (hdf : dotFreeFields fs = true)
    (hwf : wfFields fs = true) {ps : List JStr}
    (hps : ps ∈ leafPathsFields fs) :
    getValueByPath fs (joinDot ps) = getPath (.obj fs) ps := by
  obtain ⟨k1, t1, he1, _⟩ := leafPathsFields_head hps
  have hne : ps ≠ [] := by
    rw [he1]
    exact fun h => List.noConfusion h
  rw [getValueByPath, joinDot,
    splitOnChar_joinWith hne (leafPathsFields_no_dots fs hdf hps)]
  exact leafPath_fold fs hwf hps

/-- The store's `_deepEqual` coincides with `deepEqual` of `diff.ts`: the
extra `key in objB` test is subsumed by the lookup that follows it. -/
theorem store_deepEqual_all : ∀ n : Nat,
    (∀ a b : JsonVal, sizeOf a ≤ n → storeDeepEqual a b = deepEqual a b) ∧
    (∀ xs ys : List JsonVal, sizeOf xs ≤ n →
      storeDeepEqualElems xs ys = deepEqualElems xs ys) ∧
    (∀ fs fb : JFields, sizeOf fs ≤ n →
      storeDeepEqualFields fs fb = deepEqualFields fs fb) := by
  intro n
  induction n using Nat.strong_induction_on with
  | _ n ih =>
    refine ⟨?_, ?_, ?_⟩
    · intro a b hsz
      cases a with
      | null => cases b <;> rfl
      | bool x => cases b <;> rfl
      | num x => cases b <;> rfl
      | str x => cases b <;> rfl
      | arr xs =>
        cases b with
        | arr ys =>
          show (xs.length == ys.length && storeDeepEqualElems xs ys) =
            (xs.length == ys.length && deepEqualElems xs ys)
          have hlt : sizeOf xs < n := by
            simp only [JsonVal.arr.sizeOf_spec] at hsz
            omega
          rw [(ih (sizeOf xs) hlt).2.1 xs ys (Nat.le_refl _)]
        | null => rfl
        | bool y => rfl
        | num y => rfl
        | str y => rfl
        | obj fb => rfl
      | obj fs =>
        cases b with
        | obj fb =>
          show (fs.length == fb.length && storeDeepEqualFields fs fb) =
            (fs.length == fb.length && deepEqualFields fs fb)
          have hlt : sizeOf fs < n := by
            simp only [JsonVal.obj.sizeOf_spec] at hsz
            omega
          rw [(ih (sizeOf fs) hlt).2.2 fs fb (Nat.le_refl _)]
        | null => rfl
        | bool y => rfl
        | num y => rfl
        | str y => rfl
        | arr ys => rfl
    · intro xs ys hsz
      cases xs with
      | nil => rfl
      | cons x xt =>
        cases ys with
        | nil => rfl
        | cons y yt =>
          show (storeDeepEqual x y && storeDeepEqualElems xt yt) =
            (deepEqual x y && deepEqualElems xt yt)
          have h1 : sizeOf x < n := by
            simp only [List.cons.sizeOf_spec] at hsz
            omega
          have h2 : sizeOf xt < n := by
            simp only [List.cons.sizeOf_spec] at hsz
            omega
          rw [(ih (sizeOf x) h1).1 x y (Nat.le_refl _),
            (ih (sizeOf xt) h2).2.1 xt yt (Nat.le_refl _)]
    · intro fs fb hsz
      cases fs with
      | nil => rfl
      | cons kv rest =>
        obtain ⟨k, v⟩ := kv
        have h1 : sizeOf v < n := by
          simp only [List.cons.sizeOf_spec, Prod.mk.sizeOf_spec] at hsz
          omega
        have h2 : sizeOf rest < n := by
          simp only [List.cons.sizeOf_spec] at hsz
          omega
        show ((containsKey fb k &&
            match lookupField fb k with
            | some w => storeDeepEqual v w
            | none => false) && storeDeepEqualFields rest fb) =
          ((match lookupField fb k with
            | some w => deepEqual v w
            | none => false) && deepEqualFields rest fb)
        rw [(ih (sizeOf rest) h2).2.2 rest fb (Nat.le_refl _)]
        cases hlk : lookupField fb k with
        | none =>
          show ((containsKey fb k && false) && deepEqualFields rest fb) =
            (false && deepEqualFields rest fb)
          rw [Bool.and_false, Bool.false_and]
        | some w =>
          show ((containsKey fb k && storeDeepEqual v w) &&
              deepEqualFields rest fb) =
            (deepEqual v w && deepEqualFields rest fb)
          rw [show containsKey fb k = true from by rw [containsKey, hlk]; rfl,
            Bool.true_and, (ih (sizeOf v) h1).1 v w (Nat.le_refl _)]

theorem storeDeepEqual_eq (a b : JsonVal) :
    storeDeepEqual a b = deepEqual a b :=
  (store_deepEqual_all (sizeOf a)).1 a b (Nat.le_refl _)

theorem storeDeepEqualOpt_eq (o1 o2 : Option JsonVal) :
    storeDeepEqualOpt o1 o2 = deepEqualOpt o1 o2 := by
  cases o1 <;> cases o2 <;> first | rfl | exact storeDeepEqual_eq _ _

theorem joinDot_cons2 (k q : JStr) (qs : List JStr) :
    joinDot (k :: q :: qs) = k ++ '.' :: joinDot (q :: qs) := by
  show k ++ ['.'] ++ joinWith ['.'] (q :: qs) = k ++ '.' :: joinDot (q :: qs)
  rw [joinDot, List.append_assoc, List.singleton_append]

theorem preJoin_cons (pre k : JStr) (hk : k.isEmpty = false) (q : JStr)
    (qs : List JStr) :
    preJoin (if pre.isEmpty then k else pre ++ '.' :: k) (q :: qs) =
      preJoin pre (k :: q :: qs) := by
  cases pre with
  | nil =>
    show preJoin k (q :: qs) = preJoin [] (k :: q :: qs)
    rw [preJoin, preJoin,
      if_neg (by rw [hk]; exact fun h => Bool.noConfusion h),
      if_pos (show List.isEmpty ([] : JStr) = true from rfl), joinDot_cons2]
  | cons c t =>
    show preJoin ((c :: t) ++ '.' :: k) (q :: qs) =
      preJoin (c :: t) (k :: q :: qs)
    rw [preJoin, preJoin,
      if_neg (fun h => Bool.noConfusion h),
      if_neg (fun h => Bool.noConfusion h),
      joinDot_cons2]
    simp [List.append_assoc, List.cons_append]

/-- The store's dotted atomic paths are exactly the dot-joins of the
component atomic paths (size-bounded form for the induction). -/
theorem getAllPathsFields_eq_aux : ∀ n : Nat, ∀ fs : JFields,
    sizeOf fs ≤ n → dotFreeFields fs = true → ∀ pre : JStr,
    getAllPathsFields fs pre = (leafPathsFields fs).map (preJoin pre) := by
  intro n
  induction n using Nat.strong_induction_on with
  | _ n ih =>
    intro fs hsz hdf pre
    cases fs with
    | nil =>
      rw [getAllPathsFields_nil_eq, leafPathsFields_nil_eq]
      rfl
    | cons kv rest =>
      obtain ⟨k, v⟩ := kv
      simp only [dotFreeFields, Bool.and_eq_true, Bool.not_eq_true'] at hdf
      have hszrest : sizeOf rest < n := by
        simp only [List.cons.sizeOf_spec] at hsz
        omega
      rw [getAllPathsFields_cons_eq, leafPathsFields_cons_eq, List.map_append,
        ih (sizeOf rest) hszrest rest (Nat.le_refl _) hdf.2 pre]
      congr 1
      cases v with
      | obj gfs =>
        have hszg : sizeOf gfs < n := by
          simp only [List.cons.sizeOf_spec, Prod.mk.sizeOf_spec,
            JsonVal.obj.sizeOf_spec] at hsz
          omega
        show (match getAllPathsFields gfs
            (if pre.isEmpty then k else pre ++ '.' :: k) with
          | [] => [if pre.isEmpty then k else pre ++ '.' :: k]
          | nested => nested) =
            (match leafPathsFields gfs with
             | [] => [[k]]
             | nested => nested.map (fun ps => k :: ps)).map (preJoin pre)
        rw [ih (sizeOf gfs) hszg gfs (Nat.le_refl _) hdf.1.2
          (if pre.isEmpty then k else pre ++ '.' :: k)]
        cases hlp : leafPathsFields gfs with
        | nil => rfl
        | cons q qs =>
          show (q :: qs).map
              (preJoin (if pre.isEmpty then k else pre ++ '.' :: k)) =
            ((q :: qs).map (fun ps => k :: ps)).map (preJoin pre)
          rw [List.map_map]
          refine List.map_congr_left (fun ps hmem => ?_)
          obtain ⟨k2, t2, he2, _⟩ :=
            leafPathsFields_head
              (show ps ∈ leafPathsFields gfs from by rw [hlp]; exact hmem)
          subst he2
          exact preJoin_cons pre k hdf.1.1.1 k2 t2
      | null => rfl
      | bool b => rfl
      | num m => rfl
      | str sv => rfl
      | arr xs => rfl

theorem getAllPathsFields_eq (fs : JFields) (hdf : dotFreeFields fs = true)
    (pre : JStr) :
    getAllPathsFields fs pre = (leafPathsFields fs).map (preJoin pre) :=
  getAllPathsFields_eq_aux (sizeOf fs) fs (Nat.le_refl _) hdf pre

/-- Every enumerated atomic path of a well-formed object is reachable:
`get` is defined (`some`) there (size-bounded form). -/
theorem leafPath_getPath_aux : ∀ n : Nat, ∀ fs : JFields, sizeOf fs ≤ n →
    wfFields fs = true → ∀ ps ∈ leafPathsFields fs,
    (getPath (.obj fs) ps).isSome = true := by
  intro n
  induction n using Nat.strong_induction_on with
  | _ n ih =>
    intro fs hsz hwf ps hps
    cases fs with
    | nil =>
      rw [leafPathsFields_nil_eq] at hps
      cases hps
    | cons kv rest =>
      obtain ⟨k, v⟩ := kv
      simp only [wfFields, Bool.and_eq_true] at hwf
      have hszrest : sizeOf rest < n := by
        simp only [List.cons.sizeOf_spec] at hsz
        omega
      rw [leafPathsFields_cons_eq, List.mem_append] at hps
      rcases hps with hps | hps
      · cases v with
        | obj gfs =>
          have hszg : sizeOf gfs < n := by
            simp only [List.cons.sizeOf_spec, Prod.mk.sizeOf_spec,
              JsonVal.obj.sizeOf_spec] at hsz
            omega
          have h' : ps ∈ (match leafPathsFields gfs with
            | [] => [[k]]
            | nested => nested.map (fun ps => k :: ps)) := hps
          cases hlp : leafPathsFields gfs with
          | nil =>
            rw [hlp] at h'
            have he : ps = [k] := by simpa using h'
            subst he
            simp only [getPath, lookupField_cons_self]
            rfl
          | cons q qs =>
            rw [hlp] at h'
            have h2 : ps ∈ (q :: qs).map (fun ps => k :: ps) := h'
            rw [List.mem_map] at h2
            obtain ⟨ps', hps', he⟩ := h2
            subst he
            have hstep : getPath (.obj ((k, JsonVal.obj gfs) :: rest))
                (k :: ps') = getPath (.obj gfs) ps' := by
              simp only [getPath, lookupField_cons_self]
            rw [hstep]
            exact ih (sizeOf gfs) hszg gfs (Nat.le_refl _) hwf.1.2 ps'
              (by rw [hlp]; exact hps')
        | null =>
          have he : ps = [k] := by simpa using hps
          subst he
          simp only [getPath, lookupField_cons_self]
          rfl
        | bool b =>
          have he : ps = [k] := by simpa using hps
          subst he
          simp only [getPath, lookupField_cons_self]
          rfl
        | num m =>
          have he : ps = [k] := by simpa using hps
          subst he
          simp only [getPath, lookupField_cons_self]
          rfl
        | str sv =>
          have he : ps = [k] := by simpa using hps
          subst he
          simp only [getPath, lookupField_cons_self]
          rfl
        | arr xs =>
          have he : ps = [k] := by simpa using hps
          subst he
          simp only [getPath, lookupField_cons_self]
          rfl
      · obtain ⟨k', t, he, hk'⟩ := leafPathsFields_head hps
        subst he
        have hne : ¬(k = k') := by
          intro e
          subst e
          have hs := lookup_isSome_of_mem_keysOf hk'
          rw [Option.isNone_iff_eq_none.mp hwf.1.1] at hs
          cases hs
        have hstep : getPath (.obj ((k, v) :: rest)) (k' :: t) =
            getPath (.obj rest) (k' :: t) := by
          simp only [getPath, lookupField, if_neg hne]
        rw [hstep]
        exact ih (sizeOf rest) hszrest rest (Nat.le_refl _) hwf.2 _ hps

theorem leafPath_getPath_isSome (fs : JFields) (hwf : wfFields fs = true)
    {ps : List JStr} (hps : ps ∈ leafPathsFields fs) :
    (getPath (.obj fs) ps).isSome = true :=
  leafPath_getPath_aux (sizeOf fs) fs (Nat.le_refl _) hwf ps hps

/- The dotted read consults JS own properties: with user
`{a: {length: 2}}` over defaults `{a: [10, 20]}`, the defaults-side read
of `"a.length"` yields the array's `length` (2), equal to the user
value, so nothing is changed and nothing is custom. -/
example :
    changedPathsList
      [(['a'], .obj [(['l', 'e', 'n', 'g', 't', 'h'], JsonVal.num 2)])]
      [(['a'], .arr [JsonVal.num 10, JsonVal.num 20])] = [] ∧
    customPathsList
      [(['a'], .obj [(['l', 'e', 'n', 'g', 't', 'h'], JsonVal.num 2)])]
      [(['a'], .arr [JsonVal.num 10, JsonVal.num 20])] = [] := by
  have hpaths : getAllPathsFields
      [(['a'], JsonVal.obj [(['l', 'e', 'n', 'g', 't', 'h'],
        JsonVal.num 2)])] [] =
      [['a', '.', 'l', 'e', 'n', 'g', 't', 'h']] := by
    simp only [getAllPathsFields_cons_eq, getAllPathsFields_nil_eq]
    rfl
  constructor
  · rw [changedPathsList, if_neg (fun h => Bool.noConfusion h), hpaths]
    rfl
  · rw [customPathsList, hpaths]
    rfl

/-- Membership in `changedPaths`, read through component paths: on a
dot-free, well-formed user object, the dot-join of an atomic user path
is a changed path exactly when the user value at that component path is
not deep-equal to what the store's dotted read returns on the defaults
there. -/
theorem changedPathsList_mem_iff (user defaults : JFields)
    (hdf : dotFreeFields user = true) (hwu : wfFields user = true)
    {ps : List JStr} (hps : ps ∈ leafPathsFields user) :
    (joinDot ps ∈ changedPathsList user defaults ↔
      deepEqualOpt (getPath (.obj user) ps)
        (getValueByPath defaults (joinDot ps)) = false) := by
  have hvu := getValueByPath_leaf user hdf hwu hps
  have hemp : user.isEmpty = false := by
    cases user with
    | nil =>
      rw [leafPathsFields_nil_eq] at hps
      cases hps
    | cons a b => rfl
  constructor
  · intro hmem
    rw [changedPathsList,
      if_neg (by rw [hemp]; exact fun h => Bool.noConfusion h),
      List.mem_filter] at hmem
    have hp2 := hmem.2
    rw [hvu, storeDeepEqualOpt_eq] at hp2
    cases hx : deepEqualOpt (getPath (.obj user) ps)
        (getValueByPath defaults (joinDot ps)) with
    | false => rfl
    | true =>
      rw [hx] at hp2
      exact Bool.noConfusion hp2
  · intro hde
    rw [changedPathsList,
      if_neg (by rw [hemp]; exact fun h => Bool.noConfusion h),
      List.mem_filter]
    refine ⟨?_, ?_⟩
    · rw [getAllPathsFields_eq user hdf []]
      exact List.mem_map_of_mem _ hps
    · rw [hvu, storeDeepEqualOpt_eq, hde]
      rfl

end ZedSet
